import Mathlib

/-!
Verification of the NLP interpretation engine of `src/nlp-handler.js`.

Strings are modelled as `List Char`.  JavaScript numbers are modelled as `ℚ`;
the single sub-expression whose IEEE result is `NaN` (the division `0 / 0`
in the similarity formula, reachable only when both compared strings are
empty) is modelled with `Option ℚ`, `none` standing for `NaN`; every
JavaScript comparison `NaN >= t` is `false`, which the `Option`-aware
comparison below reproduces.  JavaScript `toLowerCase` is modelled on the
ASCII range, and the regex classes `\w` / `\s` are the ASCII word class and
the ECMAScript whitespace class.
-/

namespace NLP

/-- ASCII code of the space character, used instead of a space literal. -/
def spaceChar : Char := Char.ofNat 32

/-- The ECMAScript `\w` class: `[A-Za-z0-9_]`. -/
def isWordChar (c : Char) : Bool :=
  (97 ≤ c.toNat && c.toNat ≤ 122) || (65 ≤ c.toNat && c.toNat ≤ 90) ||
    (48 ≤ c.toNat && c.toNat ≤ 57) || (c.toNat == 95)

/-- The ECMAScript whitespace class used by `\s`, `split(/\s+/)` and
`String.prototype.trim`. -/
def isJsWs (c : Char) : Bool :=
  let n := c.toNat
  (9 ≤ n && n ≤ 13) || n == 32 || n == 160 || n == 5760 ||
    (8192 ≤ n && n ≤ 8202) || n == 8232 || n == 8233 || n == 8239 ||
    n == 8287 || n == 12288 || n == 65279

/-- ASCII lowercasing, the model of `String.prototype.toLowerCase`. -/
def lowerChar (c : Char) : Char :=
  if 65 ≤ c.toNat ∧ c.toNat ≤ 90 then Char.ofNat (c.toNat + 32) else c

/-- `text.toLowerCase()`. -/
def lowerStr (s : List Char) : List Char := s.map lowerChar

/-- One row-extension step of the Levenshtein matrix of
`levenshteinDistance` (lines 92-118): given the previous matrix row
(starting at the diagonal entry) and the entry to the left, produce the
remaining entries of the current row. -/
def levRowGo (c2 : Char) : List Char → List ℕ → ℕ → List ℕ
  | [], _, _ => []
  | _ :: _, [], _ => []
  | c1 :: cs1, diag :: rest, left =>
      let up := rest.headD 0
      let cell := if c1 = c2 then diag else Nat.min diag (Nat.min left up) + 1
      cell :: levRowGo c2 cs1 rest cell

/-- Iterate `levRowGo` over the characters of `str2`, producing the final
matrix row (row index threaded as `i`). -/
def levRows (str1 : List Char) : List Char → ℕ → List ℕ → List ℕ
  | [], _, row => row
  | c2 :: cs2, i, row => levRows str1 cs2 (i + 1) ((i + 1) :: levRowGo c2 str1 row (i + 1))

/-- `levenshteinDistance(str1, str2)`: dynamic-programming edit distance,
translated from the matrix construction of lines 92-118; the result is the
last entry of the final row (`matrix[str2.length][str1.length]`). -/
def levenshteinDistance (str1 str2 : List Char) : ℕ :=
  (levRows str1 str2 0 (List.range (str1.length + 1))).getLastD 0

/-- The similarity expression
`1 - levenshteinDistance(a, b) / Math.max(a.length, b.length)` appearing at
lines 155, 183 and 200.  When both strings are empty the JavaScript value is
`1 - 0/0 = NaN`, modelled as `none`. -/
def similarity (a b : List Char) : Option ℚ :=
  let m : ℕ := max a.length b.length
  if m = 0 then none
  else some (1 - (levenshteinDistance a b : ℚ) / (m : ℚ))

/-- The JavaScript comparison `similarity >= t` (false on `NaN`). -/
def simGE (a b : List Char) (t : ℚ) : Bool :=
  match similarity a b with
  | none => false
  | some q => decide (t ≤ q)

/-- `haystack.includes(needle)`. -/
def jsIncludes (s sub : List Char) : Bool :=
  if sub.isPrefixOf s then true
  else match s with
    | [] => false
    | _ :: t => jsIncludes t sub

mutual

/-- Token accumulation state of `split(/\s+/)`: currently inside a token,
`acc` holding its characters in reverse. -/
def splitWsAux : List Char → List Char → List (List Char)
  | acc, [] => [acc.reverse]
  | acc, c :: cs =>
      if isJsWs c then acc.reverse :: splitWsSkip cs else splitWsAux (c :: acc) cs

/-- Separator-skipping state of `split(/\s+/)`; a separator touching the end
of the string contributes a final empty token, as in JavaScript. -/
def splitWsSkip : List Char → List (List Char)
  | [] => [[]]
  | c :: cs => if isJsWs c then splitWsSkip cs else splitWsAux [c] cs

end

/-- `text.split(/\s+/)` (leading or trailing separators produce empty
tokens, `"".split` produces `[""]`, as in JavaScript). -/
def splitWs (s : List Char) : List (List Char) := splitWsAux [] s

/-- `text.trim()`. -/
def jsTrim (s : List Char) : List Char :=
  ((s.dropWhile isJsWs).reverse.dropWhile isJsWs).reverse

/-- The literal text of a two-word replacement pattern `\bpa pb\b`. -/
def bpat (pa pb : List Char) : List Char := pa ++ spaceChar :: pb

/-- A `\b` assertion holds before a word character exactly when the
preceding character (if any) is not a word character. -/
def lbOk (prev : Option Char) : Bool :=
  match prev with
  | none => true
  | some c => !isWordChar c

/-- A `\b` assertion holds after a word character exactly when the
following character (if any) is not a word character. -/
def rbOk : List Char → Bool
  | [] => true
  | c :: _ => !isWordChar c

/-- Either `\b`-delimited boundary test for a match of `pat` (a pattern
starting and ending with word characters) at the head of `s`, with `prev`
the character before the current position. -/
def headM (pat : List Char) (prev : Option Char) (s : List Char) : Bool :=
  lbOk prev && pat.isPrefixOf s && rbOk (s.drop pat.length)

/-- `text.replace(/\bpa pb\b/g, rep)`: global left-to-right non-overlapping
replacement with word boundaries at both ends; scanning resumes after each
replaced occurrence, with `prev` tracking the character preceding the
current scan position in the source string. -/
def replBA (pa pb rep : List Char) (prev : Option Char) (s : List Char) : List Char :=
  match s with
  | [] => []
  | c :: cs =>
      if headM (bpat pa pb) prev (c :: cs) then
        rep ++ replBA pa pb rep (some ((bpat pa pb).getLastD c))
          ((c :: cs).drop (bpat pa pb).length)
      else c :: replBA pa pb rep (some c) cs
termination_by s.length
decreasing_by
  · simp only [List.length_drop, List.length_cons, bpat, List.length_append]
    omega
  · simp

/-- `text.replace(/\bpat/g, rep)` for a nonempty pattern with only a
leading word boundary (used for the `cd ` / `git ` rules). -/
def replLB (pat rep : List Char) (prev : Option Char) (s : List Char) : List Char :=
  match s with
  | [] => []
  | c :: cs =>
      if pat ≠ [] ∧ lbOk prev ∧ pat.isPrefixOf (c :: cs) then
        rep ++ replLB pat rep (some (pat.getLastD c)) ((c :: cs).drop pat.length)
      else c :: replLB pat rep (some c) cs
termination_by s.length
decreasing_by
  · simp only [List.length_drop, List.length_cons]
    rename_i h
    have : pat.length ≠ 0 := by
      intro h0
      exact h.1 (List.length_eq_zero.mp h0)
    omega
  · simp

/-- `correctWhisperErrors(text)` (lines 123-138): lowercase, then the fixed
chain of boundary-delimited global replacements, in source order. -/
def correctWhisperErrors (text : List Char) : List Char :=
  replLB "git ".toList "git ".toList none
    (replLB "cd ".toList "cd ".toList none
      (replBA "file".toList "path".toList "filepath".toList none
        (replBA "the".toList "lead".toList "delete".toList none
          (replBA "d".toList "lead".toList "delete".toList none
            (replBA "term".toList "null".toList "terminal".toList none
              (replBA "in".toList "stall".toList "install".toList none
                (replBA "exit".toList "cute".toList "execute".toList none
                  (lowerStr text))))))))

/-- The result object of `detectMetaCommand`. -/
structure MetaResult where
  isCommand : Bool
  action : String
  confidence : ℚ
  original : List Char
deriving Repr, DecidableEq

/-- The meta-command table (lines 77-86), in declared iteration order. -/
def metaCommands : List (String × List (List Char)) :=
  [("reset", ["reset".toList, "clear".toList, "start over".toList,
      "new conversation".toList, "restart".toList]),
   ("save", ["save chat".toList, "export chat".toList, "download chat".toList,
      "save conversation".toList]),
   ("scroll_up", ["scroll up".toList, "go up".toList, "move up".toList]),
   ("scroll_down", ["scroll down".toList, "go down".toList, "move down".toList]),
   ("scroll_top", ["scroll to top".toList, "go to top".toList, "top".toList]),
   ("scroll_bottom", ["scroll to bottom".toList, "go to bottom".toList, "bottom".toList]),
   ("copy", ["copy response".toList, "copy message".toList, "copy last".toList,
      "copy that".toList]),
   ("help", ["help".toList, "what can you do".toList, "show help".toList,
      "commands".toList])]

/-- Loop body of `detectMetaCommand` for one trigger phrase: substring hit
returns confidence `1.0`, otherwise a similarity at least `0.85` returns
that similarity (a `NaN` similarity compares false and falls through). -/
def patternMatch (corrected pat : List Char) : Option ℚ :=
  if jsIncludes corrected pat then some 1
  else match similarity corrected pat with
    | some q => if 17/20 ≤ q then some q else none
    | none => none

/-- `detectMetaCommand(text)` (lines 143-163): first qualifying trigger
phrase in declared command/phrase order wins. -/
def detectMetaCommand (text : List Char) : Option MetaResult :=
  let corrected := correctWhisperErrors text
  metaCommands.findSome? fun cp =>
    cp.2.findSome? fun pat =>
      (patternMatch corrected pat).map fun q =>
        { isCommand := true, action := cp.1, confidence := q, original := text }

/-- One intent row of the `intents` table. -/
structure IntentData where
  keywords : List (List Char)
  objects : List (List Char)
  confidence : ℚ
deriving Repr, DecidableEq

/-- The intent table (lines 38-74), in declared iteration order. -/
def intents : List (String × IntentData) :=
  [("file_read",
    ⟨["read".toList, "show".toList, "display".toList, "open".toList, "view".toList,
      "see".toList, "look at".toList, "cat".toList, "check".toList],
     ["file".toList, "document".toList, "code".toList, "script".toList, "text".toList],
     3/5⟩),
   ("file_write",
    ⟨["write".toList, "create".toList, "make".toList, "save".toList, "edit".toList,
      "modify".toList, "update".toList, "change".toList],
     ["file".toList, "document".toList, "code".toList, "script".toList], 3/5⟩),
   ("file_delete",
    ⟨["delete".toList, "remove".toList, "erase".toList, "trash".toList, "kill".toList],
     ["file".toList, "document".toList, "code".toList, "folder".toList], 7/10⟩),
   ("file_list",
    ⟨["list".toList, "show".toList, "display".toList, "see".toList, "what".toList,
      "ls".toList, "dir".toList],
     ["files".toList, "directories".toList, "folder".toList, "directory".toList,
      "contents".toList], 3/5⟩),
   ("execute_command",
    ⟨["run".toList, "execute".toList, "start".toList, "launch".toList,
      "perform".toList, "do".toList],
     ["command".toList, "script".toList, "program".toList, "code".toList], 3/5⟩),
   ("search",
    ⟨["find".toList, "search".toList, "look for".toList, "locate".toList,
      "where".toList, "grep".toList],
     ["file".toList, "text".toList, "code".toList, "string".toList, "word".toList],
     3/5⟩),
   ("install",
    ⟨["install".toList, "add".toList, "get".toList, "download".toList, "npm".toList,
      "pip".toList, "apt".toList],
     ["package".toList, "library".toList, "module".toList, "dependency".toList],
     7/10⟩)]

/-- Inner word loop of `extractIntent` for one keyword: the fuzzy check adds
the similarity when it is at least `0.7`, and the substring check fires once
per word, each time adding `1.0` (both accumulate into `(score, matches)`). -/
def keywordLoop (corrected : List Char) (words : List (List Char)) (keyword : List Char)
    (acc : ℚ × ℕ) : ℚ × ℕ :=
  words.foldl (fun sm w =>
    let sm1 := match similarity w keyword with
      | some q => if 7/10 ≤ q then (sm.1 + q, sm.2 + 1) else sm
      | none => sm
    if jsIncludes corrected keyword then (sm1.1 + 1, sm1.2 + 1) else sm1) acc

/-- Inner word loop of `extractIntent` for one object: identical to
`keywordLoop` but with contributions weighted by `0.5`. -/
def objectLoop (corrected : List Char) (words : List (List Char)) (obj : List Char)
    (acc : ℚ × ℕ) : ℚ × ℕ :=
  words.foldl (fun sm w =>
    let sm1 := match similarity w obj with
      | some q => if 7/10 ≤ q then (sm.1 + q * (1/2), sm.2 + 1) else sm
      | none => sm
    if jsIncludes corrected obj then (sm1.1 + 1/2, sm1.2 + 1) else sm1) acc

/-- Score of one intent row on a corrected text and its word list:
`(score, keywordMatches, objectMatches)` as accumulated by lines 175-211. -/
def intentScore (d : IntentData) (corrected : List Char) (words : List (List Char)) :
    ℚ × ℕ × ℕ :=
  let kw := d.keywords.foldl (fun acc k => keywordLoop corrected words k acc) (0, 0)
  let ob := d.objects.foldl (fun acc o => objectLoop corrected words o acc) (0, 0)
  (kw.1 + ob.1, kw.2, ob.2)

/-- The result object of `extractIntent`. -/
structure IntentResult where
  intent : String
  confidence : ℚ
  keywordMatches : ℕ
  objectMatches : ℕ
deriving Repr, DecidableEq

/-- `extractIntent(text)` (lines 168-229): score every intent, keep the
first (in declared order) whose keyword-hit count is positive, whose
confidence reaches its per-intent floor, and whose confidence strictly
exceeds the running best score. -/
def extractIntent (text : List Char) : Option IntentResult :=
  let corrected := correctWhisperErrors text
  let words := splitWs corrected
  (intents.foldl (fun best nd =>
      let s := intentScore nd.2 corrected words
      if 0 < s.2.1 then
        let conf := s.1 / ((nd.2.keywords.length : ℚ) + (nd.2.objects.length : ℚ))
        if nd.2.confidence ≤ conf ∧ best.2 < conf then
          (some ⟨nd.1, conf, s.2.1, s.2.2⟩, conf)
        else best
      else best)
    ((none : Option IntentResult), (0 : ℚ))).1

/-- Character class `[^\\s/]` of the absolute-path regex. -/
def isAbsSegChar (c : Char) : Bool := !isJsWs c && c.toNat != 47

/-- Greedy match of `(?:\\/[^\\s\\/]+)+` at the head of the input: returns the
matched text and the rest (`([], s)` when there is no match here). -/
def absMunch : List Char → List Char × List Char
  | [] => ([], [])
  | c :: cs =>
      if c.toNat = 47 ∧ isAbsSegChar (cs.head?.getD spaceChar) = true then
        let mr := absMunch (cs.drop (cs.takeWhile isAbsSegChar).length)
        (c :: (cs.takeWhile isAbsSegChar ++ mr.1), mr.2)
      else ([], c :: cs)
termination_by s => s.length
decreasing_by
  simp only [List.length_drop, List.length_cons]
  omega

/-- Dropping the length of `takeWhile` is `dropWhile`. -/
theorem drop_length_takeWhile (p : Char → Bool) (l : List Char) :
    l.drop (l.takeWhile p).length = l.dropWhile p := by
  induction l with
  | nil => rfl
  | cons c cs ih =>
      by_cases h : p c
      · simp [List.takeWhile_cons_of_pos h, List.dropWhile_cons_of_pos h, ih]
      · simp [List.takeWhile_cons_of_neg h, List.dropWhile_cons_of_neg h]

theorem absMunch_append (s : List Char) : (absMunch s).1 ++ (absMunch s).2 = s := by
  induction s using absMunch.induct with
  | case1 => simp [absMunch]
  | case2 c cs h ih =>
      rw [absMunch]
      rw [if_pos h]
      simp only [List.cons_append, List.append_assoc, List.cons.injEq, true_and]
      rw [ih, drop_length_takeWhile, List.takeWhile_append_dropWhile]
  | case3 c cs h =>
      rw [absMunch]
      rw [if_neg h]
      rfl

theorem absMunch_snd_lt (c : Char) (cs : List Char)
    (h : (absMunch (c :: cs)).1 ≠ []) :
    (absMunch (c :: cs)).2.length < cs.length + 1 := by
  have h2 := absMunch_append (c :: cs)
  have h5 : 0 < (absMunch (c :: cs)).1.length := List.length_pos.mpr h
  have h3 : (absMunch (c :: cs)).1.length + (absMunch (c :: cs)).2.length
      = cs.length + 1 := by
    rw [← List.length_append, h2, List.length_cons]
  omega

/-- Scanner for `text.match(/(?:\\/[^\\s\\/]+)+/g)`: left-to-right, at each
position emit the greedy match and resume after it, otherwise advance one
character. -/
def absScan : List Char → List (List Char)
  | [] => []
  | c :: cs =>
      if (absMunch (c :: cs)).1 = [] then absScan cs
      else (absMunch (c :: cs)).1 :: absScan (absMunch (c :: cs)).2
termination_by s => s.length
decreasing_by
  · simp only [List.length_cons]
    omega
  · simp only [List.length_cons]
    exact absMunch_snd_lt _ _ (by assumption)


/-- Character class `[\\w\\-./]` of the relative-path regex body. -/
def isRelBodyChar (c : Char) : Bool :=
  isWordChar c || c.toNat == 45 || c.toNat == 46 || c.toNat == 47

/-- Try one alternative prefix (`./` or `../`) of the relative-path regex at
the head of `s`, followed by a nonempty greedy `[\\w\\-./]+` body. -/
def relTryPre (pre s : List Char) : Option (List Char × List Char) :=
  if pre.isPrefixOf s then
    let rest := s.drop pre.length
    let body := rest.takeWhile isRelBodyChar
    if body = [] then none
    else some (pre ++ body, rest.drop body.length)
  else none

/-- Match of `(?:\\.\\/|\\.\\.\\/)[\\w\\-./]+` at the head of `s`
(alternatives tried in source order). -/
def relTryAt (s : List Char) : Option (List Char × List Char) :=
  match relTryPre "./".toList s with
  | some x => some x
  | none => relTryPre "../".toList s

theorem relTryPre_eq (pre s : List Char) (mr : List Char × List Char)
    (h : relTryPre pre s = some mr) :
    mr.1 ++ mr.2 = s ∧ pre.length + 1 ≤ mr.1.length := by
  unfold relTryPre at h
  by_cases hp : pre.isPrefixOf s
  · rw [if_pos hp] at h
    by_cases hb : (s.drop pre.length).takeWhile isRelBodyChar = []
    · rw [if_pos hb] at h
      exact absurd h (by simp)
    · rw [if_neg hb] at h
      have h1 : mr = (pre ++ (s.drop pre.length).takeWhile isRelBodyChar,
          (s.drop pre.length).drop ((s.drop pre.length).takeWhile isRelBodyChar).length) := by
        exact (Option.some.injEq _ _ ▸ h).symm ▸ rfl
      subst h1
      constructor
      · simp only [List.append_assoc]
        rw [drop_length_takeWhile, List.takeWhile_append_dropWhile]
        exact List.prefix_iff_eq_append.mp (List.isPrefixOf_iff_prefix.mp hp)
      · simp only [List.length_append]
        have : 0 < ((s.drop pre.length).takeWhile isRelBodyChar).length :=
          List.length_pos.mpr hb
        omega
  · rw [if_neg hp] at h
    exact absurd h (by simp)

theorem relTryAt_eq (s : List Char) (mr : List Char × List Char)
    (h : relTryAt s = some mr) : mr.1 ++ mr.2 = s ∧ 1 ≤ mr.1.length := by
  unfold relTryAt at h
  cases h2 : relTryPre "./".toList s with
  | some x =>
      rw [h2] at h
      have h3 := relTryPre_eq _ _ _ h2
      cases h
      exact ⟨h3.1, by have := h3.2; omega⟩
  | none =>
      rw [h2] at h
      have h3 := relTryPre_eq _ _ _ h
      exact ⟨h3.1, by have := h3.2; omega⟩

theorem relTryAt_snd_lt (c : Char) (cs : List Char) (mr : List Char × List Char)
    (h : relTryAt (c :: cs) = some mr) : mr.2.length < cs.length + 1 := by
  have h1 := relTryAt_eq _ _ h
  have h2 : mr.1.length + mr.2.length = cs.length + 1 := by
    rw [← List.length_append, h1.1, List.length_cons]
  have := h1.2
  omega

/-- Scanner for `text.match(/(?:\\.\\/|\\.\\.\\/)[\\w\\-.\\/]+/g)`. -/
def relScan : List Char → List (List Char)
  | [] => []
  | c :: cs =>
      match h : relTryAt (c :: cs) with
      | some mr => mr.1 :: relScan mr.2
      | none => relScan cs
termination_by s => s.length
decreasing_by
  · simp only [List.length_cons]
    exact relTryAt_snd_lt _ _ _ h
  · simp only [List.length_cons]
    omega

/-- Character class `[\\w\\-]` of the bare-filename regex. -/
def isFileBodyChar (c : Char) : Bool := isWordChar c || c.toNat == 45

/-- Match of `\\b[\\w\\-]+\\.[\\w]+\\b` at the head of `s`, with `prev` the
character before the current position (the leading `\\b` compares the
word-ness of `prev` and of the first character). -/
def fileTryAt (prev : Option Char) (s : List Char) : Option (List Char × List Char) :=
  match s with
  | [] => none
  | c :: _ =>
      let prevW : Bool := match prev with | none => false | some p => isWordChar p
      if prevW = isWordChar c then none
      else
        let body := s.takeWhile isFileBodyChar
        if body = [] then none
        else
          match s.drop body.length with
          | d :: rest2 =>
              if d.toNat = 46 then
                let tl := rest2.takeWhile isWordChar
                if tl = [] then none
                else if rbOk (rest2.drop tl.length) then
                  some (body ++ d :: tl, rest2.drop tl.length)
                else none
              else none
          | [] => none

theorem fileTryAt_eq (prev : Option Char) (s : List Char) (mr : List Char × List Char)
    (h : fileTryAt prev s = some mr) : mr.1 ++ mr.2 = s ∧ 1 ≤ mr.1.length := by
  match s with
  | [] => exact absurd h (by simp [fileTryAt])
  | c :: cs =>
      unfold fileTryAt at h
      simp only at h
      split at h
      · exact absurd h (by simp)
      · split at h
        · exact absurd h (by simp)
        · split at h
          next d rest2 hdrop =>
            split at h
            · split at h
              · exact absurd h (by simp)
              · split at h
                · cases h
                  refine ⟨?_, ?_⟩
                  · simp only [List.append_assoc, List.cons_append]
                    have h5 : rest2.takeWhile isWordChar ++
                        rest2.drop (rest2.takeWhile isWordChar).length = rest2 := by
                      rw [drop_length_takeWhile, List.takeWhile_append_dropWhile]
                    rw [h5]
                    have h6 : (c :: cs).takeWhile isFileBodyChar ++ (d :: rest2) = c :: cs := by
                      conv_rhs => rw [← List.takeWhile_append_dropWhile
                        (p := isFileBodyChar) (l := c :: cs)]
                      rw [← hdrop, drop_length_takeWhile]
                    exact h6
                  · simp only [List.length_append, List.length_cons]
                    omega
                · exact absurd h (by simp)
            · exact absurd h (by simp)
          next hdrop => exact absurd h (by simp)

theorem fileTryAt_snd_lt (prev : Option Char) (c : Char) (cs : List Char)
    (mr : List Char × List Char) (h : fileTryAt prev (c :: cs) = some mr) :
    mr.2.length < cs.length + 1 := by
  have h1 := fileTryAt_eq _ _ _ h
  have h2 : mr.1.length + mr.2.length = cs.length + 1 := by
    rw [← List.length_append, h1.1, List.length_cons]
  have := h1.2
  omega

/-- Scanner for `text.match(/\\b[\\w\\-]+\\.[\\w]+\\b/g)` with `prev`
threading the character preceding the scan position. -/
def fileScan (prev : Option Char) : List Char → List (List Char)
  | [] => []
  | c :: cs =>
      match h : fileTryAt prev (c :: cs) with
      | some mr => mr.1 :: fileScan (some (mr.1.getLastD c)) mr.2
      | none => fileScan (some c) cs
termination_by s => s.length
decreasing_by
  · simp only [List.length_cons]
    exact fileTryAt_snd_lt _ _ _ _ h
  · simp only [List.length_cons]
    omega

/-- The concatenation `paths` of the three pattern families of
`extractFilePaths` (lines 234-257), before deduplication. -/
def rawPaths (text : List Char) : List (List Char) :=
  absScan text ++ relScan text ++ fileScan none text

/-- `[...new Set(paths)]`: remove exact duplicates keeping each first
occurrence in position. -/
def dedupFirst : List (List Char) → List (List Char)
  | [] => []
  | x :: xs => x :: dedupFirst (xs.filter (fun y => decide (y ≠ x)))
termination_by l => l.length
decreasing_by
  have := List.length_filter_le (fun y => decide (y ≠ x)) xs
  simp only [List.length_cons]
  omega

/-- `extractFilePaths(text)` (lines 234-259). -/
def extractFilePaths (text : List Char) : List (List Char) :=
  dedupFirst (rawPaths text)

/-- The `contexts` table of `getIntentContext` (lines 336-347). -/
def contexts : List (String × List Char) :=
  [("file_read", "read/view a file".toList),
   ("file_write", "create or edit a file".toList),
   ("file_delete", "delete a file or folder".toList),
   ("file_list", "list files in a directory".toList),
   ("execute_command", "run a command or script".toList),
   ("search", "find or search for something".toList),
   ("install", "install a package or dependency".toList)]

/-- `getIntentContext(intentName)`. -/
def getIntentContext (intentName : String) : Option (List Char) :=
  contexts.lookup intentName

/-- `filePaths.join(', ')`. -/
def joinComma (l : List (List Char)) : List Char :=
  (l.intersperse ", ".toList).join

/-- `buildEnhancedPrompt(text, intent, filePaths)` (lines 314-331). -/
def buildEnhancedPrompt (text : List Char) (intent : Option IntentResult)
    (filePaths : List (List Char)) : List Char :=
  let prompt := text
  let prompt :=
    match intent with
    | some i =>
        match getIntentContext i.intent with
        | some ctx =>
            text ++ "\n\n[Context: User likely wants to ".toList ++ ctx ++ "]".toList
        | none => prompt
    | none => prompt
  if filePaths ≠ [] then
    prompt ++ "\n[Detected file paths: ".toList ++ joinComma filePaths ++ "]".toList
  else prompt

/-- The tagged result union of `interpret` (§3 of the spec): exactly one of
`empty`, `metaCommand`, `task`, `conversation`. -/
inductive InterpretationResult where
  | empty : InterpretationResult
  | metaCommand (isCommand : Bool) (action : String) (confidence : ℚ)
      (original : List Char) : InterpretationResult
  | task (original corrected : List Char) (intent : String) (confidence : ℚ)
      (filePaths : List (List Char)) (enhancedPrompt : List Char) : InterpretationResult
  | conversation (original corrected : List Char) (filePaths : List (List Char))
      (enhancedPrompt : List Char) : InterpretationResult
deriving Repr, DecidableEq

/-- `interpret(text)` (lines 264-309). -/
def interpret (text : List Char) : InterpretationResult :=
  if text = [] ∨ jsTrim text = [] then .empty
  else
    match detectMetaCommand text with
    | some m => .metaCommand m.isCommand m.action m.confidence m.original
    | none =>
        let correctedText := correctWhisperErrors text
        let intent := extractIntent correctedText
        let filePaths := extractFilePaths text
        match intent with
        | some i =>
            if 1/2 ≤ i.confidence then
              .task text correctedText i.intent i.confidence filePaths
                (buildEnhancedPrompt correctedText (some i) filePaths)
            else .conversation text correctedText filePaths correctedText
        | none => .conversation text correctedText filePaths correctedText

/-- The confidence carried by a `metaCommand` result, if any. -/
def metaConfidence : InterpretationResult → Option ℚ
  | .metaCommand _ _ q _ => some q
  | _ => none

/-- The confidence carried by a `task` result, if any. -/
def taskConfidence : InterpretationResult → Option ℚ
  | .task _ _ _ q _ _ => some q
  | _ => none

/-- The intent name carried by a `task` result, if any. -/
def taskIntent : InterpretationResult → Option String
  | .task _ _ i _ _ _ => some i
  | _ => none

/-- Spec-shaped reformulation of meta-command resolution (spec 4.3, written
from the spec's words for claim C6): flatten the command table into the
ordered `(action, phrase)` pair list and return the first qualifying entry,
a substring hit giving confidence exactly `1`, otherwise a similarity of at
least `0.85` giving that similarity. -/
def firstQualifyingMeta (text : List Char) : Option MetaResult :=
  let corrected := correctWhisperErrors text
  (metaCommands.bind fun cp => cp.2.map fun pat => (cp.1, pat)).findSome? fun ap =>
    if jsIncludes corrected ap.2 then
      some { isCommand := true, action := ap.1, confidence := 1, original := text }
    else
      match similarity corrected ap.2 with
      | some q =>
          if 17/20 ≤ q then
            some { isCommand := true, action := ap.1, confidence := q, original := text }
          else none
      | none => none

/-- Fuzzy score contribution of one `(word, keyword)` pair in
`keywordLoop`: the similarity when it reaches `0.7`, else `0`. -/
def fuzzyContrib (w kw : List Char) : ℚ :=
  match similarity w kw with
  | some q => if 7/10 ≤ q then q else 0
  | none => 0

/-- Fuzzy hit count of one `(word, keyword)` pair. -/
def fuzzyHit (w kw : List Char) : ℕ :=
  match similarity w kw with
  | some q => if 7/10 ≤ q then 1 else 0
  | none => 0

/-- Fuzzy score contribution of one `(word, object)` pair in `objectLoop`
(weighted by `0.5`). -/
def objContrib (w ob : List Char) : ℚ :=
  match similarity w ob with
  | some q => if 7/10 ≤ q then q * (1/2) else 0
  | none => 0

/-- Modelled from the spec's words for claim C2 (spec 4.4): identical to
`intentScore` except that the substring bonus fires once per keyword
(respectively once per object), not once per word. -/
def intentScoreSpecOnce (d : IntentData) (corrected : List Char)
    (words : List (List Char)) : ℚ × ℕ × ℕ :=
  let kw := d.keywords.foldl (fun acc k =>
    let f := words.foldl (fun sm w =>
      match similarity w k with
      | some q => if 7/10 ≤ q then (sm.1 + q, sm.2 + 1) else sm
      | none => sm) acc
    if jsIncludes corrected k then (f.1 + 1, f.2 + 1) else f) (0, 0)
  let ob := d.objects.foldl (fun acc o =>
    let f := words.foldl (fun sm w =>
      match similarity w o with
      | some q => if 7/10 ≤ q then (sm.1 + q * (1/2), sm.2 + 1) else sm
      | none => sm) acc
    if jsIncludes corrected o then (f.1 + 1/2, f.2 + 1) else f) (0, 0)
  (kw.1 + ob.1, kw.2, ob.2)

/-- All characters of `l` are `\\w` word characters. -/
def WordOnly (l : List Char) : Prop := ∀ c ∈ l, isWordChar c = true

instance (l : List Char) : Decidable (WordOnly l) := List.decidableBAll _ l

/-- Whether a `\\b`-delimited occurrence of `pat` starts anywhere in `s`
(with `prev` the character before `s`): the specification predicate for the
global replacements of `correctWhisperErrors`. -/
def hasM (pat : List Char) : Option Char → List Char → Bool
  | _, [] => false
  | prev, c :: cs => headM pat prev (c :: cs) || hasM pat (some c) cs

/-- The character preceding the suffix `t` when `a ++ t` is scanned with
initial preceding character `prev`. -/
def prevOf (a : List Char) (prev : Option Char) : Option Char :=
  match a.getLast? with
  | some c => some c
  | none => prev

/-- Spec-shaped deduplication (written from the spec's words for claim C4):
scan left to right remembering the strings already seen; a string is kept
exactly at its first occurrence's position, and every later exact duplicate
is dropped. -/
def keepFirsts (seen : List (List Char)) : List (List Char) → List (List Char)
  | [] => []
  | x :: xs => if x ∈ seen then keepFirsts seen xs else x :: keepFirsts (x :: seen) xs

/-- `keepFirsts` starting from nothing seen: first-occurrence deduplication.
-/
def firstOccurrenceDedup (l : List (List Char)) : List (List Char) :=
  keepFirsts [] l

/-! ### Helper lemmas -/

theorem jsTrim_of_all_ws (text : List Char) (h : text.all isJsWs = true) :
    jsTrim text = [] := by
  have h1 : text.dropWhile isJsWs = [] := by
    rw [List.dropWhile_eq_nil_iff]
    intro x hx
    exact (List.all_eq_true.mp h) x hx
  unfold jsTrim
  rw [h1]
  rfl

theorem similarity_some (a b : List Char) (s : ℚ) (h : similarity a b = some s) :
    s = 1 - (levenshteinDistance a b : ℚ) / ((max a.length b.length : ℕ) : ℚ) ∧
      0 < max a.length b.length := by
  unfold similarity at h
  by_cases hm : max a.length b.length = 0
  · rw [if_pos hm] at h
    cases h
  · rw [if_neg hm] at h
    exact ⟨(Option.some.inj h).symm, Nat.pos_of_ne_zero hm⟩

theorem similarity_le_one (a b : List Char) (s : ℚ) (h : similarity a b = some s) :
    s ≤ 1 := by
  obtain ⟨hs, hm⟩ := similarity_some a b s h
  rw [hs]
  have h1 : (0 : ℚ) ≤ (levenshteinDistance a b : ℚ) / ((max a.length b.length : ℕ) : ℚ) :=
    div_nonneg (Nat.cast_nonneg _) (Nat.cast_nonneg _)
  linarith

theorem patternMatch_bounds (c p : List Char) (q : ℚ) (h : patternMatch c p = some q) :
    0 ≤ q ∧ q ≤ 1 := by
  unfold patternMatch at h
  by_cases hsub : jsIncludes c p = true
  · rw [if_pos hsub] at h
    cases h
    norm_num
  · rw [if_neg hsub] at h
    cases hsim : similarity c p with
    | none => rw [hsim] at h; cases h
    | some s =>
        rw [hsim] at h
        dsimp only at h
        by_cases hth : (17 : ℚ)/20 ≤ s
        · rw [if_pos hth] at h
          cases h
          refine ⟨by linarith, similarity_le_one _ _ _ hsim⟩
        · rw [if_neg hth] at h
          cases h

theorem detectMetaCommand_bounds (text : List Char) (m : MetaResult)
    (h : detectMetaCommand text = some m) : 0 ≤ m.confidence ∧ m.confidence ≤ 1 := by
  unfold detectMetaCommand at h
  obtain ⟨cp, hmem, hcp⟩ := List.exists_of_findSome?_eq_some h
  obtain ⟨pat, hpmem, hpat⟩ := List.exists_of_findSome?_eq_some hcp
  cases hq : patternMatch (correctWhisperErrors text) pat with
  | none => rw [hq] at hpat; cases hpat
  | some q =>
      rw [hq] at hpat
      cases hpat
      exact patternMatch_bounds _ _ _ hq

theorem dedupFirst_sublist (l : List (List Char)) : List.Sublist (dedupFirst l) l := by
  induction l using dedupFirst.induct with
  | case1 => simp [dedupFirst]
  | case2 x xs ih =>
      rw [dedupFirst]
      exact List.Sublist.cons₂ x (ih.trans (List.filter_sublist xs))

theorem dedupFirst_nodup (l : List (List Char)) : (dedupFirst l).Nodup := by
  induction l using dedupFirst.induct with
  | case1 => simp [dedupFirst]
  | case2 x xs ih =>
      rw [dedupFirst]
      refine List.nodup_cons.mpr ⟨?_, ih⟩
      intro hmem
      have h2 := (dedupFirst_sublist _).subset hmem
      simp at h2

theorem mem_dedupFirst (l : List (List Char)) (x : List Char) :
    x ∈ dedupFirst l ↔ x ∈ l := by
  induction l using dedupFirst.induct with
  | case1 => simp [dedupFirst]
  | case2 y ys ih =>
      rw [dedupFirst]
      by_cases hxy : x = y
      · subst hxy
        simp
      · simp only [List.mem_cons, ih, List.mem_filter, decide_eq_true_eq]
        constructor
        · rintro (h | ⟨h1, _⟩)
          · exact Or.inl h
          · exact Or.inr h1
        · rintro (h | h1)
          · exact Or.inl h
          · exact Or.inr ⟨h1, by simpa using hxy⟩

theorem findSome?_append {α β : Type} (l1 l2 : List α) (f : α → Option β) :
    (l1 ++ l2).findSome? f =
      match l1.findSome? f with
      | some b => some b
      | none => l2.findSome? f := by
  induction l1 with
  | nil => simp [List.findSome?_nil]
  | cons x xs ih =>
      simp only [List.cons_append, List.findSome?_cons]
      cases f x with
      | none => exact ih
      | some b => rfl

theorem findSome?_bind {α β γ : Type} (l : List α) (g : α → List β) (f : β → Option γ) :
    (l.bind g).findSome? f = l.findSome? fun a => (g a).findSome? f := by
  induction l with
  | nil => rfl
  | cons x xs ih =>
      have h1 : (x :: xs).bind g = g x ++ xs.bind g := rfl
      rw [h1, findSome?_append, List.findSome?_cons]
      cases (g x).findSome? f with
      | none => exact ih
      | some b => rfl

theorem patternMatch_map_eq (c : List Char) (a : String) (t pat : List Char) :
    ((patternMatch c pat).map fun q =>
        ({ isCommand := true, action := a, confidence := q, original := t } : MetaResult)) =
      if jsIncludes c pat then
        some { isCommand := true, action := a, confidence := 1, original := t }
      else
        match similarity c pat with
        | some q =>
            if 17/20 ≤ q then
              some { isCommand := true, action := a, confidence := q, original := t }
            else none
        | none => none := by
  unfold patternMatch
  by_cases hsub : jsIncludes c pat = true
  · rw [if_pos hsub, if_pos hsub]
    rfl
  · rw [if_neg hsub, if_neg hsub]
    cases similarity c pat with
    | none => rfl
    | some q =>
        dsimp only
        by_cases hth : (17 : ℚ)/20 ≤ q
        · rw [if_pos hth, if_pos hth]
          rfl
        · rw [if_neg hth, if_neg hth]
          rfl

theorem headD_eq_getD (l : List ℕ) : l.headD 0 = l.getD 0 0 := by
  cases l <;> rfl

theorem levRowGo_bound (c2 : Char) (i : ℕ) (hi : 1 ≤ i) :
    ∀ (s1part : List Char) (prevTail : List ℕ) (left j0 : ℕ), 1 ≤ j0 →
      (∀ k, prevTail.getD k 0 ≤ max (i - 1) (j0 - 1 + k)) →
      left ≤ max i (j0 - 1) →
      ∀ k, (levRowGo c2 s1part prevTail left).getD k 0 ≤ max i (j0 + k) := by
  intro s1part
  induction s1part with
  | nil =>
      intro prevTail left j0 _ _ _ k
      simp [levRowGo]
  | cons c1 cs1 ih =>
      intro prevTail left j0 hj0 hprev hleft k
      cases prevTail with
      | nil => simp [levRowGo]
      | cons diag rest =>
          have hdiag : diag ≤ max (i - 1) (j0 - 1) := by
            have := hprev 0
            simpa using this
          have hup : rest.headD 0 ≤ max (i - 1) j0 := by
            rw [headD_eq_getD]
            have := hprev 1
            simp only [List.getD_cons_succ] at this
            have h2 : j0 - 1 + 1 = j0 := by omega
            rwa [h2] at this
          have hcell : (if c1 = c2 then diag
              else Nat.min diag (Nat.min left (rest.headD 0)) + 1) ≤ max i j0 := by
            by_cases hc : c1 = c2
            · rw [if_pos hc]
              have : max (i - 1) (j0 - 1) ≤ max i j0 := by omega
              omega
            · rw [if_neg hc]
              have h3 : Nat.min diag (Nat.min left (rest.headD 0)) ≤ diag := Nat.min_le_left _ _
              have : max (i - 1) (j0 - 1) + 1 ≤ max i j0 := by omega
              omega
          rw [levRowGo]
          cases k with
          | zero =>
              simpa using hcell
          | succ k =>
              simp only [List.getD_cons_succ]
              have hrec := ih rest (if c1 = c2 then diag
                  else Nat.min diag (Nat.min left (rest.headD 0)) + 1) (j0 + 1)
                (by omega)
                (fun k2 => by
                  have := hprev (k2 + 1)
                  simp only [List.getD_cons_succ] at this
                  have h4 : j0 - 1 + (k2 + 1) = j0 + 1 - 1 + k2 := by omega
                  rwa [h4] at this)
                (by
                  have h5 : j0 + 1 - 1 = j0 := by omega
                  rwa [h5])
                k
              have h6 : j0 + 1 + k = j0 + (k + 1) := by omega
              rwa [h6] at hrec

theorem levRows_bound (str1 : List Char) :
    ∀ (cs2 : List Char) (i : ℕ) (row : List ℕ),
      (∀ k, row.getD k 0 ≤ max i k) →
      ∀ k, (levRows str1 cs2 i row).getD k 0 ≤ max (i + cs2.length) k := by
  intro cs2
  induction cs2 with
  | nil =>
      intro i row hrow k
      simpa [levRows] using hrow k
  | cons c2 cs2 ih =>
      intro i row hrow k
      rw [levRows]
      have hnew : ∀ k2, ((i + 1) :: levRowGo c2 str1 row (i + 1)).getD k2 0 ≤
          max (i + 1) k2 := by
        intro k2
        cases k2 with
        | zero => simp
        | succ k2 =>
            simp only [List.getD_cons_succ]
            have h10 := levRowGo_bound c2 (i + 1) (by omega) str1 row (i + 1) 1 (by omega)
              (fun k3 => by simpa using hrow k3) (by simp) k2
            have h11 : 1 + k2 = k2 + 1 := by omega
            rw [h11] at h10
            simpa using h10
      have := ih (i + 1) ((i + 1) :: levRowGo c2 str1 row (i + 1)) hnew k
      have h7 : i + 1 + cs2.length = i + (cs2.length + 1) := by omega
      rwa [h7] at this

theorem getLastD_eq_getD (l : List ℕ) (hl : l ≠ []) (d : ℕ) :
    l.getLastD d = l.getD (l.length - 1) 0 := by
  induction l generalizing d with
  | nil => exact absurd rfl hl
  | cons x xs ih =>
      rw [List.getLastD_cons]
      cases xs with
      | nil => rfl
      | cons y ys =>
          rw [ih (by simp) x]
          simp

theorem levenshteinDistance_le_max (a b : List Char) :
    levenshteinDistance a b ≤ max a.length b.length := by
  unfold levenshteinDistance
  have hrange : ∀ k, (List.range (a.length + 1)).getD k 0 ≤ max 0 k := by
    intro k
    by_cases hk : k < a.length + 1
    · rw [List.getD_eq_getElem _ _ (by simpa using hk)]
      simp
    · rw [List.getD_eq_default]
      · simp
      · simpa using hk
  have hbound := levRows_bound a b 0 (List.range (a.length + 1)) hrange
  have hne : levRows a b 0 (List.range (a.length + 1)) ≠ [] := by
    have h1 : ∀ (cs2 : List Char) (i : ℕ) (row : List ℕ), row ≠ [] →
        levRows a cs2 i row ≠ [] := by
      intro cs2
      induction cs2 with
      | nil => intro i row hrow; simpa [levRows] using hrow
      | cons c2 cs2 ih =>
          intro i row _
          rw [levRows]
          exact ih _ _ (by simp)
    exact h1 b 0 _ (by simp)
  rw [getLastD_eq_getD _ hne]
  have := hbound ((levRows a b 0 (List.range (a.length + 1))).length - 1)
  have h8 : ∀ m k, m ≤ max (0 + b.length) k → k ≤ a.length → m ≤ max a.length b.length := by
    intro m k h1 h2
    simp only [Nat.zero_add] at h1
    omega
  refine h8 _ _ this ?_
  have hlen : ∀ (cs2 : List Char) (i : ℕ) (row : List ℕ),
      (levRows a cs2 i row).length ≤ max row.length (a.length + 1) := by
    intro cs2
    induction cs2 with
    | nil => intro i row; simp [levRows]
    | cons c2 cs2 ih =>
        intro i row
        rw [levRows]
        refine (ih _ _).trans ?_
        have hgo : ∀ (s1part : List Char) (pt : List ℕ) (lf : ℕ),
            (levRowGo c2 s1part pt lf).length ≤ s1part.length := by
          intro s1part
          induction s1part with
          | nil => intro pt lf; simp [levRowGo]
          | cons c1 cs1 ih2 =>
              intro pt lf
              cases pt with
              | nil => simp [levRowGo]
              | cons diag rest =>
                  rw [levRowGo]
                  simpa using ih2 rest _
        have := hgo a row (i + 1)
        simp only [List.length_cons]
        omega
    
  have := hlen b 0 (List.range (a.length + 1))
  simp only [List.length_range] at this
  omega

theorem patternMatch_strong_bounds (c p : List Char) (q : ℚ)
    (h : patternMatch c p = some q) : 17/20 ≤ q ∧ q ≤ 1 := by
  unfold patternMatch at h
  by_cases hsub : jsIncludes c p = true
  · rw [if_pos hsub] at h
    cases h
    norm_num
  · rw [if_neg hsub] at h
    cases hsim : similarity c p with
    | none => rw [hsim] at h; cases h
    | some s =>
        rw [hsim] at h
        dsimp only at h
        by_cases hth : (17 : ℚ)/20 ≤ s
        · rw [if_pos hth] at h
          cases h
          exact ⟨hth, similarity_le_one _ _ _ hsim⟩
        · rw [if_neg hth] at h
          cases h

theorem detectMetaCommand_strong_bounds (text : List Char) (m : MetaResult)
    (h : detectMetaCommand text = some m) : 17/20 ≤ m.confidence ∧ m.confidence ≤ 1 := by
  unfold detectMetaCommand at h
  obtain ⟨cp, hmem, hcp⟩ := List.exists_of_findSome?_eq_some h
  obtain ⟨pat, hpmem, hpat⟩ := List.exists_of_findSome?_eq_some hcp
  cases hq : patternMatch (correctWhisperErrors text) pat with
  | none => rw [hq] at hpat; cases hpat
  | some q =>
      rw [hq] at hpat
      cases hpat
      exact patternMatch_strong_bounds _ _ _ hq

theorem toNat_ofNat_valid (n : ℕ) (h : n < 55296) : (Char.ofNat n).toNat = n := by
  have hv : n.isValidChar := Or.inl h
  rw [Char.ofNat, dif_pos hv]
  rfl

theorem lowerChar_toNat (c : Char) (h : 65 ≤ c.toNat ∧ c.toNat ≤ 90) :
    (lowerChar c).toNat = c.toNat + 32 := by
  unfold lowerChar
  rw [if_pos h]
  exact toNat_ofNat_valid _ (by omega)

theorem lowerChar_idem (c : Char) : lowerChar (lowerChar c) = lowerChar c := by
  by_cases h : 65 ≤ c.toNat ∧ c.toNat ≤ 90
  · have h1 := lowerChar_toNat c h
    unfold lowerChar
    rw [if_pos h]
    rw [show Char.ofNat (c.toNat + 32) = lowerChar c from by unfold lowerChar; rw [if_pos h]]
    rw [if_neg (by omega)]
  · unfold lowerChar
    rw [if_neg h, if_neg h]

theorem lowerStr_idem (s : List Char) : lowerStr (lowerStr s) = lowerStr s := by
  unfold lowerStr
  rw [List.map_map]
  exact List.map_congr_left fun c _ => lowerChar_idem c

theorem lowerChar_not_upper (c : Char) :
    (lowerChar c).toNat < 65 ∨ 90 < (lowerChar c).toNat := by
  by_cases h : 65 ≤ c.toNat ∧ c.toNat ≤ 90
  · rw [lowerChar_toNat c h]
    omega
  · unfold lowerChar
    rw [if_neg h]
    omega

theorem replBA_mem (pa pb rep : List Char) (prev : Option Char) (s : List Char)
    (c : Char) (hc : c ∈ replBA pa pb rep prev s) : c ∈ s ∨ c ∈ rep := by
  induction prev, s using replBA.induct pa pb rep with
  | case1 prev => simp [replBA] at hc
  | case2 prev x xs hm ih =>
      rw [replBA, if_pos hm] at hc
      rcases List.mem_append.mp hc with h | h
      · exact Or.inr h
      · rcases ih h with h2 | h2
        · exact Or.inl ((List.drop_sublist _ _).subset h2)
        · exact Or.inr h2
  | case3 prev x xs hm ih =>
      rw [replBA, if_neg hm] at hc
      rcases List.mem_cons.mp hc with h | h
      · exact Or.inl (h ▸ List.mem_cons_self x xs)
      · rcases ih h with h2 | h2
        · exact Or.inl (List.mem_cons_of_mem x h2)
        · exact Or.inr h2

theorem replLB_mem (pat rep : List Char) (prev : Option Char) (s : List Char)
    (c : Char) (hc : c ∈ replLB pat rep prev s) : c ∈ s ∨ c ∈ rep := by
  induction prev, s using replLB.induct pat rep with
  | case1 prev => simp [replLB] at hc
  | case2 prev x xs hm ih =>
      rw [replLB, if_pos hm] at hc
      rcases List.mem_append.mp hc with h | h
      · exact Or.inr h
      · rcases ih h with h2 | h2
        · exact Or.inl ((List.drop_sublist _ _).subset h2)
        · exact Or.inr h2
  | case3 prev x xs hm ih =>
      rw [replLB, if_neg hm] at hc
      rcases List.mem_cons.mp hc with h | h
      · exact Or.inl (h ▸ List.mem_cons_self x xs)
      · rcases ih h with h2 | h2
        · exact Or.inl (List.mem_cons_of_mem x h2)
        · exact Or.inr h2

theorem getLastD_mem (l : List Char) (hl : l ≠ []) (d : Char) : l.getLastD d ∈ l := by
  induction l generalizing d with
  | nil => exact absurd rfl hl
  | cons x xs ih =>
      rw [List.getLastD_cons]
      cases xs with
      | nil => simp
      | cons y ys => exact List.mem_cons_of_mem x (ih (by simp) x)

theorem getLast?_eq_getLastD (l : List Char) (hl : l ≠ []) (d : Char) :
    l.getLast? = some (l.getLastD d) := by
  induction l generalizing d with
  | nil => exact absurd rfl hl
  | cons x xs ih =>
      rw [List.getLastD_cons]
      cases xs with
      | nil => rfl
      | cons y ys =>
          rw [List.getLast?_cons_cons, ih (by simp) x]

theorem getLastD_append_right (l1 l2 : List Char) (hl2 : l2 ≠ []) (d : Char) :
    (l1 ++ l2).getLastD d ∈ l2 := by
  induction l1 generalizing d with
  | nil => exact getLastD_mem l2 hl2 d
  | cons x l1 ih =>
      rw [List.cons_append, List.getLastD_cons]
      exact ih x

theorem bpat_ne_nil (pa pb : List Char) : bpat pa pb ≠ [] := by
  unfold bpat
  cases pa <;> simp

theorem bpat_getLastD_word (pa pb : List Char) (hpb : pb ≠ [])
    (hw : WordOnly pb) (d : Char) : isWordChar ((bpat pa pb).getLastD d) = true := by
  have h1 : bpat pa pb = (pa ++ [spaceChar]) ++ pb := by
    unfold bpat
    simp
  rw [h1]
  exact hw _ (getLastD_append_right _ _ hpb d)

theorem prevOf_cons (c : Char) (a : List Char) (prev : Option Char) :
    prevOf (c :: a) prev = prevOf a (some c) := by
  unfold prevOf
  cases a with
  | nil => rfl
  | cons y ys =>
      rw [List.getLast?_cons_cons, getLast?_eq_getLastD (y :: ys) (by simp) y]

theorem headM_prevIrrel (pat : List Char) (p1 p2 : Option Char)
    (h : lbOk p1 = lbOk p2) (s : List Char) : headM pat p1 s = headM pat p2 s := by
  unfold headM
  rw [h]

theorem hasM_prevIrrel (pat : List Char) (p1 p2 : Option Char)
    (h : lbOk p1 = lbOk p2) (s : List Char) : hasM pat p1 s = hasM pat p2 s := by
  cases s with
  | nil => rfl
  | cons c cs =>
      rw [hasM, hasM, headM_prevIrrel pat p1 p2 h]

theorem hasM_append_right (pat a : List Char) :
    ∀ (prev : Option Char) (t : List Char), hasM pat (prevOf a prev) t = true →
      hasM pat prev (a ++ t) = true := by
  induction a with
  | nil => intro prev t h; exact h
  | cons c a ih =>
      intro prev t h
      rw [List.cons_append, hasM]
      refine Bool.or_eq_true_iff.mpr (Or.inr ?_)
      refine ih (some c) t ?_
      rwa [← prevOf_cons c a prev]

theorem headM_word_prev (pat : List Char) (c : Char) (hc : isWordChar c = true)
    (s : List Char) : headM pat (some c) s = false := by
  simp [headM, lbOk, hc]

theorem hasM_append_words (pat a : List Char) (hwa : WordOnly a) :
    ∀ (prev : Option Char) (t : List Char), hasM pat prev (a ++ t) = true →
      headM pat prev (a ++ t) = true ∨ hasM pat (prevOf a prev) t = true := by
  induction a with
  | nil => intro prev t h; exact Or.inr h
  | cons c a ih =>
      intro prev t h
      rw [List.cons_append, hasM] at h
      rcases Bool.or_eq_true_iff.mp h with h | h
      · exact Or.inl (by rwa [List.cons_append])
      · have hwa2 : WordOnly a := fun x hx => hwa x (List.mem_cons_of_mem c hx)
        rcases ih hwa2 (some c) t h with h2 | h2
        · rw [headM_word_prev pat c (hwa c (List.mem_cons_self c a)) (a ++ t)] at h2
          cases h2
        · rw [← prevOf_cons c a prev] at h2
          exact Or.inr h2

theorem replBA_noMatch_id (pa pb r : List Char) :
    ∀ (prev : Option Char) (s : List Char),
      hasM (bpat pa pb) prev s = false → replBA pa pb r prev s = s := by
  intro prev s
  induction prev, s using replBA.induct pa pb r with
  | case1 prev => intro _; simp [replBA]
  | case2 prev c cs hm ih =>
      intro h
      rw [hasM] at h
      simp [hm] at h
  | case3 prev c cs hm ih =>
      intro h
      rw [hasM, Bool.or_eq_false_iff] at h
      rw [replBA, if_neg hm]
      rw [ih h.2]

theorem replLB_self (pat : List Char) :
    ∀ (prev : Option Char) (s : List Char), replLB pat pat prev s = s := by
  intro prev s
  induction prev, s using replLB.induct pat pat with
  | case1 prev => simp [replLB]
  | case2 prev c cs hm ih =>
      rw [replLB, if_pos hm]
      have hpre : pat.isPrefixOf (c :: cs) = true := by
        have := hm.2.2
        simpa using this
      have hdec : pat ++ (c :: cs).drop pat.length = c :: cs :=
        List.prefix_iff_eq_append.mp (List.isPrefixOf_iff_prefix.mp hpre)
      rw [ih]
      exact hdec
  | case3 prev c cs hm ih =>
      rw [replLB, if_neg hm, ih]

theorem spaceChar_not_word : isWordChar spaceChar = false := by decide

theorem prefix_word_run_space :
    ∀ (r w t z : List Char), WordOnly w → WordOnly r → r ≠ [] → w ≠ r →
      rbOk t = true → (w ++ spaceChar :: z).isPrefixOf (r ++ t) = true → False := by
  intro r
  induction r with
  | nil => intro w t z _ _ hr _ _ _; exact hr rfl
  | cons x r ihr =>
      intro w t z hww hwr _ hwne hrb hpre
      cases w with
      | nil =>
          rw [List.nil_append, List.cons_append] at hpre
          simp only [List.isPrefixOf, Bool.and_eq_true, beq_iff_eq] at hpre
          have hx : isWordChar x = true := hwr x (List.mem_cons_self x r)
          rw [← hpre.1] at hx
          rw [spaceChar_not_word] at hx
          exact Bool.false_ne_true hx
      | cons y w =>
          rw [List.cons_append, List.cons_append] at hpre
          simp only [List.isPrefixOf, Bool.and_eq_true, beq_iff_eq] at hpre
          obtain ⟨hyx, hpre2⟩ := hpre
          subst hyx
          cases r with
          | nil =>
              rw [List.nil_append] at hpre2
              cases w with
              | nil => exact hwne rfl
              | cons u w2 =>
                  cases t with
                  | nil => simp [List.isPrefixOf] at hpre2
                  | cons tc ts =>
                      rw [List.cons_append] at hpre2
                      simp only [List.isPrefixOf, Bool.and_eq_true, beq_iff_eq] at hpre2
                      have hu : isWordChar u = true := hww u (by simp)
                      rw [hpre2.1] at hu
                      rw [rbOk, hu] at hrb
                      simp at hrb
          | cons x2 r2 =>
              refine ihr w t z ?_ ?_ (by simp) ?_ hrb hpre2
              · exact fun d hd => hww d (List.mem_cons_of_mem y hd)
              · exact fun d hd => hwr d (List.mem_cons_of_mem y hd)
              · intro he
                exact hwne (by rw [he])

theorem prefix_word_run_word :
    ∀ (r w t : List Char), WordOnly w → WordOnly r → r ≠ [] → w ≠ r →
      rbOk t = true → w.isPrefixOf (r ++ t) = true →
      rbOk ((r ++ t).drop w.length) = true → False := by
  intro r
  induction r with
  | nil => intro w t _ _ hr _ _ _ _; exact hr rfl
  | cons x r ihr =>
      intro w t hww hwr _ hwne hrb hpre hdrop
      cases w with
      | nil =>
          rw [List.length_nil, List.drop_zero, List.cons_append, rbOk] at hdrop
          have hx : isWordChar x = true := hwr x (List.mem_cons_self x r)
          rw [hx] at hdrop
          simp at hdrop
      | cons y w =>
          rw [List.cons_append] at hpre
          simp only [List.isPrefixOf, Bool.and_eq_true, beq_iff_eq] at hpre
          obtain ⟨hyx, hpre2⟩ := hpre
          subst hyx
          rw [List.length_cons, List.cons_append, List.drop_succ_cons] at hdrop
          cases r with
          | nil =>
              rw [List.nil_append] at hpre2
              cases w with
              | nil => exact hwne rfl
              | cons u w2 =>
                  cases t with
                  | nil => simp [List.isPrefixOf] at hpre2
                  | cons tc ts =>
                      simp only [List.isPrefixOf, Bool.and_eq_true, beq_iff_eq] at hpre2
                      have hu : isWordChar u = true := hww u (by simp)
                      rw [hpre2.1] at hu
                      rw [rbOk, hu] at hrb
                      simp at hrb
          | cons x2 r2 =>
              refine ihr w t ?_ ?_ (by simp) ?_ hrb hpre2 hdrop
              · exact fun d hd => hww d (List.mem_cons_of_mem y hd)
              · exact fun d hd => hwr d (List.mem_cons_of_mem y hd)
              · intro he
                exact hwne (by rw [he])

theorem rbOk_replBA (pa pb r : List Char) (hpa : pa ≠ []) (hwpa : WordOnly pa)
    (prev : Option Char) (s : List Char) (h : rbOk s = true) :
    rbOk (replBA pa pb r prev s) = true := by
  cases s with
  | nil => simp [replBA, rbOk]
  | cons c cs =>
      rw [rbOk] at h
      have hc : isWordChar c = false := by
        cases hcc : isWordChar c
        · rfl
        · rw [hcc] at h
          simp at h
      have hhead : headM (bpat pa pb) prev (c :: cs) = false := by
        unfold headM
        cases pa with
        | nil => exact absurd rfl hpa
        | cons a pa2 =>
            have ha : isWordChar a = true := hwpa a (by simp)
            have hpref : (bpat (a :: pa2) pb).isPrefixOf (c :: cs) = false := by
              unfold bpat
              rw [List.cons_append]
              simp only [List.isPrefixOf]
              have hac : (a == c) = false := by
                refine beq_eq_false_iff_ne.mpr ?_
                intro he
                rw [he, hc] at ha
                exact Bool.false_ne_true ha
              rw [hac]
              rfl
            rw [hpref]
            simp
      rw [replBA, if_neg (by simp [hhead])]
      rwa [rbOk]

theorem headM_split (pat : List Char) (prev : Option Char) (s : List Char)
    (h : headM pat prev s = true) :
    lbOk prev = true ∧ pat.isPrefixOf s = true ∧ rbOk (s.drop pat.length) = true := by
  unfold headM at h
  rw [Bool.and_eq_true, Bool.and_eq_true] at h
  exact ⟨h.1.1, h.1.2, h.2⟩

theorem phaseII (qa qb r : List Char) (hqa : qa ≠ []) (hwqa : WordOnly qa)
    (hqb : qb ≠ []) (hwqb : WordOnly qb) (hr : r ≠ []) (hwr : WordOnly r)
    (pb : List Char) (hpbr : pb ≠ r) (hwpb : WordOnly pb) :
    ∀ (prev : Option Char) (s : List Char), ∀ (pb2 : List Char), WordOnly pb2 →
      (pb2 = pb ∨ lbOk prev = false) →
      pb2.isPrefixOf (replBA qa qb r prev s) = true →
      rbOk ((replBA qa qb r prev s).drop pb2.length) = true →
      pb2.isPrefixOf s = true ∧ rbOk (s.drop pb2.length) = true := by
  intro prev s
  induction prev, s using replBA.induct qa qb r with
  | case1 prev =>
      intro pb2 _ _ hpre hdrop
      rw [show replBA qa qb r prev [] = [] from by rw [replBA]] at hpre hdrop
      cases pb2 with
      | nil => exact ⟨rfl, by simpa using hdrop⟩
      | cons b pb3 => simp [List.isPrefixOf] at hpre
  | case2 prev c cs hm ih =>
      intro pb2 hwpb2 hcond hpre hdrop
      obtain ⟨hlb, hqpre, hqrb⟩ := headM_split _ _ _ hm
      have hpb2 : pb2 = pb := by
        rcases hcond with h | h
        · exact h
        · rw [hlb] at h
          exact absurd h (by simp)
      subst hpb2
      rw [replBA, if_pos hm] at hpre hdrop
      have hout : rbOk (replBA qa qb r (some ((bpat qa qb).getLastD c))
          ((c :: cs).drop (bpat qa qb).length)) = true :=
        rbOk_replBA qa qb r hqa hwqa _ _ hqrb
      exact absurd hdrop (by
        intro hd
        exact prefix_word_run_word r pb2 _ hwpb2 hwr hr hpbr hout hpre hd)
  | case3 prev c cs hm ih =>
      intro pb2 hwpb2 hcond hpre hdrop
      rw [replBA, if_neg hm] at hpre hdrop
      cases pb2 with
      | nil =>
          refine ⟨rfl, ?_⟩
          rw [List.length_nil, List.drop_zero] at hdrop ⊢
          rw [rbOk] at hdrop ⊢
          exact hdrop
      | cons b pb3 =>
          simp only [List.isPrefixOf, Bool.and_eq_true, beq_iff_eq] at hpre
          obtain ⟨hbc, hpre2⟩ := hpre
          rw [List.length_cons, List.drop_succ_cons] at hdrop
          have hb : isWordChar b = true := hwpb2 b (by simp)
          have hwpb3 : WordOnly pb3 := fun d hd => hwpb2 d (List.mem_cons_of_mem b hd)
          have hcond2 : pb3 = pb ∨ lbOk (some c) = false := by
            right
            rw [lbOk, ← hbc, hb]
            rfl
          obtain ⟨hp, hd⟩ := ih pb3 hwpb3 hcond2 hpre2 hdrop
          constructor
          · simp only [List.isPrefixOf, Bool.and_eq_true, beq_iff_eq]
            exact ⟨hbc, hp⟩
          · rw [List.length_cons, List.drop_succ_cons]
            exact hd

theorem phaseI (qa qb r : List Char) (hqa : qa ≠ []) (hwqa : WordOnly qa)
    (hqb : qb ≠ []) (hwqb : WordOnly qb) (hr : r ≠ []) (hwr : WordOnly r)
    (pa pb : List Char) (hpar : pa ≠ r) (hwpa : WordOnly pa)
    (hpbr : pb ≠ r) (hwpb : WordOnly pb) :
    ∀ (prev : Option Char) (s : List Char), ∀ (pa2 : List Char), WordOnly pa2 →
      (pa2 = pa ∨ lbOk prev = false) →
      (pa2 ++ spaceChar :: pb).isPrefixOf (replBA qa qb r prev s) = true →
      rbOk ((replBA qa qb r prev s).drop (pa2 ++ spaceChar :: pb).length) = true →
      (pa2 ++ spaceChar :: pb).isPrefixOf s = true ∧
        rbOk (s.drop (pa2 ++ spaceChar :: pb).length) = true := by
  intro prev s
  induction prev, s using replBA.induct qa qb r with
  | case1 prev =>
      intro pa2 _ _ hpre _
      rw [show replBA qa qb r prev [] = [] from by rw [replBA]] at hpre
      exact absurd hpre (by cases pa2 <;> simp [List.isPrefixOf])
  | case2 prev c cs hm ih =>
      intro pa2 hwpa2 hcond hpre hdrop
      obtain ⟨hlb, hqpre, hqrb⟩ := headM_split _ _ _ hm
      have hpa2 : pa2 = pa := by
        rcases hcond with h | h
        · exact h
        · rw [hlb] at h
          exact absurd h (by simp)
      subst hpa2
      rw [replBA, if_pos hm] at hpre
      have hout : rbOk (replBA qa qb r (some ((bpat qa qb).getLastD c))
          ((c :: cs).drop (bpat qa qb).length)) = true :=
        rbOk_replBA qa qb r hqa hwqa _ _ hqrb
      exact absurd hpre (by
        intro hp
        exact prefix_word_run_space r pa2 _ pb hwpa2 hwr hr hpar hout hp)
  | case3 prev c cs hm ih =>
      intro pa2 hwpa2 hcond hpre hdrop
      rw [replBA, if_neg hm] at hpre hdrop
      cases pa2 with
      | nil =>
          rw [List.nil_append] at hpre hdrop ⊢
          simp only [List.isPrefixOf, Bool.and_eq_true, beq_iff_eq] at hpre
          obtain ⟨hsc, hpre2⟩ := hpre
          rw [List.length_cons, List.drop_succ_cons] at hdrop
          obtain ⟨hp, hd⟩ := phaseII qa qb r hqa hwqa hqb hwqb hr hwr pb hpbr hwpb
            (some c) cs pb hwpb (Or.inl rfl) hpre2 hdrop
          constructor
          · simp only [List.isPrefixOf, Bool.and_eq_true, beq_iff_eq]
            exact ⟨hsc, hp⟩
          · rw [List.length_cons, List.drop_succ_cons]
            exact hd
      | cons a pa3 =>
          rw [List.cons_append] at hpre hdrop ⊢
          simp only [List.isPrefixOf, Bool.and_eq_true, beq_iff_eq] at hpre
          obtain ⟨hac, hpre2⟩ := hpre
          rw [List.length_cons, List.drop_succ_cons] at hdrop
          have ha : isWordChar a = true := hwpa2 a (by simp)
          have hwpa3 : WordOnly pa3 := fun d hd => hwpa2 d (List.mem_cons_of_mem a hd)
          have hcond2 : pa3 = pa ∨ lbOk (some c) = false := by
            right
            rw [lbOk, ← hac, ha]
            rfl
          obtain ⟨hp, hd⟩ := ih pa3 hwpa3 hcond2 hpre2 hdrop
          constructor
          · simp only [List.isPrefixOf, Bool.and_eq_true, beq_iff_eq]
            exact ⟨hac, hp⟩
          · rw [List.length_cons, List.drop_succ_cons]
            exact hd

theorem headM_reflect (qa qb r : List Char) (hqa : qa ≠ []) (hwqa : WordOnly qa)
    (hqb : qb ≠ []) (hwqb : WordOnly qb) (hr : r ≠ []) (hwr : WordOnly r)
    (pa pb : List Char) (hpar : pa ≠ r) (hwpa : WordOnly pa)
    (hpbr : pb ≠ r) (hwpb : WordOnly pb)
    (prev : Option Char) (s : List Char)
    (h : headM (bpat pa pb) prev (replBA qa qb r prev s) = true) :
    headM (bpat pa pb) prev s = true := by
  obtain ⟨hlb, hpre, hrb⟩ := headM_split _ _ _ h
  unfold bpat at hpre hrb
  obtain ⟨hp, hd⟩ := phaseI qa qb r hqa hwqa hqb hwqb hr hwr pa pb hpar hwpa hpbr hwpb
    prev s pa hwpa (Or.inl rfl) hpre hrb
  unfold headM bpat
  rw [Bool.and_eq_true, Bool.and_eq_true]
  exact ⟨⟨hlb, hp⟩, hd⟩

theorem hasM_reflect (qa qb r : List Char) (hqa : qa ≠ []) (hwqa : WordOnly qa)
    (hqb : qb ≠ []) (hwqb : WordOnly qb) (hr : r ≠ []) (hwr : WordOnly r)
    (pa pb : List Char) (hpar : pa ≠ r) (hwpa : WordOnly pa)
    (hpbr : pb ≠ r) (hwpb : WordOnly pb) :
    ∀ (prev : Option Char) (s : List Char),
      hasM (bpat pa pb) prev (replBA qa qb r prev s) = true →
      hasM (bpat pa pb) prev s = true := by
  intro prev s
  induction prev, s using replBA.induct qa qb r with
  | case1 prev =>
      intro h
      rw [show replBA qa qb r prev [] = [] from by rw [replBA]] at h
      exact absurd h (by simp [hasM])
  | case2 prev c cs hm ih =>
      intro h
      obtain ⟨hlb, hqpre, hqrb⟩ := headM_split _ _ _ hm
      rw [replBA, if_pos hm] at h
      have hout : rbOk (replBA qa qb r (some ((bpat qa qb).getLastD c))
          ((c :: cs).drop (bpat qa qb).length)) = true :=
        rbOk_replBA qa qb r hqa hwqa _ _ hqrb
      rcases hasM_append_words (bpat pa pb) r hwr prev _ h with h2 | h2
      · obtain ⟨_, hpre2, _⟩ := headM_split _ _ _ h2
        unfold bpat at hpre2
        exact absurd hpre2 (by
          intro hp
          exact prefix_word_run_space r pa _ pb hwpa hwr hr hpar hout hp)
      · have hlast : lbOk (prevOf r prev) = false := by
          unfold prevOf
          rw [getLast?_eq_getLastD r hr spaceChar]
          rw [lbOk, hwr _ (getLastD_mem r hr spaceChar)]
          rfl
        have hprev2 : lbOk (some ((bpat qa qb).getLastD c)) = false := by
          rw [lbOk, bpat_getLastD_word qa qb hqb hwqb c]
          rfl
        rw [hasM_prevIrrel (bpat pa pb) (prevOf r prev)
          (some ((bpat qa qb).getLastD c)) (by rw [hlast, hprev2])] at h2
        have h4 := ih h2
        have hdec : bpat qa qb ++ (c :: cs).drop (bpat qa qb).length = c :: cs :=
          List.prefix_iff_eq_append.mp (List.isPrefixOf_iff_prefix.mp hqpre)
        have hpev : prevOf (bpat qa qb) prev = some ((bpat qa qb).getLastD c) := by
          unfold prevOf
          rw [getLast?_eq_getLastD (bpat qa qb) (bpat_ne_nil qa qb) c]
        have h5 := hasM_append_right (bpat pa pb) (bpat qa qb) prev
          ((c :: cs).drop (bpat qa qb).length) (by rw [hpev]; exact h4)
        rwa [hdec] at h5
  | case3 prev c cs hm ih =>
      intro h
      rw [replBA, if_neg hm] at h
      rw [hasM] at h ⊢
      rcases Bool.or_eq_true_iff.mp h with h2 | h2
      · have hrepl : replBA qa qb r prev (c :: cs) =
            c :: replBA qa qb r (some c) cs := by
          rw [replBA, if_neg hm]
        have h3 := headM_reflect qa qb r hqa hwqa hqb hwqb hr hwr pa pb hpar hwpa
          hpbr hwpb prev (c :: cs) (by rw [hrepl]; exact h2)
        exact Bool.or_eq_true_iff.mpr (Or.inl h3)
      · exact Bool.or_eq_true_iff.mpr (Or.inr (ih h2))

theorem hasM_clear (qa qb r : List Char) (hqa : qa ≠ []) (hwqa : WordOnly qa)
    (hqb : qb ≠ []) (hwqb : WordOnly qb) (hr : r ≠ []) (hwr : WordOnly r)
    (hqar : qa ≠ r) (hqbr : qb ≠ r) :
    ∀ (prev : Option Char) (s : List Char),
      hasM (bpat qa qb) prev (replBA qa qb r prev s) = false := by
  intro prev s
  induction prev, s using replBA.induct qa qb r with
  | case1 prev =>
      rw [show replBA qa qb r prev [] = [] from by rw [replBA]]
      rfl
  | case2 prev c cs hm ih =>
      obtain ⟨hlb, hqpre, hqrb⟩ := headM_split _ _ _ hm
      rw [replBA, if_pos hm]
      have hout : rbOk (replBA qa qb r (some ((bpat qa qb).getLastD c))
          ((c :: cs).drop (bpat qa qb).length)) = true :=
        rbOk_replBA qa qb r hqa hwqa _ _ hqrb
      cases hh : hasM (bpat qa qb) prev (r ++ replBA qa qb r
          (some ((bpat qa qb).getLastD c)) ((c :: cs).drop (bpat qa qb).length)) with
      | false => rfl
      | true =>
          exfalso
          rcases hasM_append_words (bpat qa qb) r hwr prev _ hh with h2 | h2
          · obtain ⟨_, hpre2, _⟩ := headM_split _ _ _ h2
            unfold bpat at hpre2
            exact prefix_word_run_space r qa _ qb hwqa hwr hr hqar hout hpre2
          · have hlast : lbOk (prevOf r prev) = false := by
              unfold prevOf
              rw [getLast?_eq_getLastD r hr spaceChar]
              rw [lbOk, hwr _ (getLastD_mem r hr spaceChar)]
              rfl
            have hprev2 : lbOk (some ((bpat qa qb).getLastD c)) = false := by
              rw [lbOk, bpat_getLastD_word qa qb hqb hwqb c]
              rfl
            rw [hasM_prevIrrel (bpat qa qb) (prevOf r prev)
              (some ((bpat qa qb).getLastD c)) (by rw [hlast, hprev2])] at h2
            rw [ih] at h2
            exact Bool.false_ne_true h2
  | case3 prev c cs hm ih =>
      rw [replBA, if_neg hm]
      rw [hasM]
      refine Bool.or_eq_false_iff.mpr ⟨?_, ih⟩
      cases hh : headM (bpat qa qb) prev
          (c :: replBA qa qb r (some c) cs) with
      | false => rfl
      | true =>
          exfalso
          have hrepl : replBA qa qb r prev (c :: cs) =
              c :: replBA qa qb r (some c) cs := by
            rw [replBA, if_neg hm]
          have h3 := headM_reflect qa qb r hqa hwqa hqb hwqb hr hwr qa qb hqar hwqa
            hqbr hwqb prev (c :: cs) (by rw [hrepl]; exact hh)
          exact hm h3

theorem chain_noMatch_1 (z : List Char) :
    hasM (bpat "exit".toList "cute".toList) none
      (replBA "file".toList "path".toList "filepath".toList none
      (replBA "the".toList "lead".toList "delete".toList none
      (replBA "d".toList "lead".toList "delete".toList none
      (replBA "term".toList "null".toList "terminal".toList none
      (replBA "in".toList "stall".toList "install".toList none
      (replBA "exit".toList "cute".toList "execute".toList none
      (z))))))) = false := by
  have h1 : hasM (bpat "exit".toList "cute".toList) none
      (replBA "exit".toList "cute".toList "execute".toList none
      (z)) = false :=
    hasM_clear "exit".toList "cute".toList "execute".toList (by decide) (by decide)
      (by decide) (by decide) (by decide) (by decide) (by decide) (by decide) none
      (z)
  have h2 : hasM (bpat "exit".toList "cute".toList) none
      (replBA "in".toList "stall".toList "install".toList none
      (replBA "exit".toList "cute".toList "execute".toList none
      (z))) = false := by
    cases hh : hasM (bpat "exit".toList "cute".toList) none
        (replBA "in".toList "stall".toList "install".toList none
      (replBA "exit".toList "cute".toList "execute".toList none
      (z))) with
    | false => rfl
    | true =>
        exfalso
        have hrf := hasM_reflect "in".toList "stall".toList "install".toList (by decide)
          (by decide) (by decide) (by decide) (by decide) (by decide)
          "exit".toList "cute".toList (by decide) (by decide) (by decide) (by decide)
          none (replBA "exit".toList "cute".toList "execute".toList none
      (z)) hh
        rw [h1] at hrf
        exact Bool.false_ne_true hrf
  have h3 : hasM (bpat "exit".toList "cute".toList) none
      (replBA "term".toList "null".toList "terminal".toList none
      (replBA "in".toList "stall".toList "install".toList none
      (replBA "exit".toList "cute".toList "execute".toList none
      (z)))) = false := by
    cases hh : hasM (bpat "exit".toList "cute".toList) none
        (replBA "term".toList "null".toList "terminal".toList none
      (replBA "in".toList "stall".toList "install".toList none
      (replBA "exit".toList "cute".toList "execute".toList none
      (z)))) with
    | false => rfl
    | true =>
        exfalso
        have hrf := hasM_reflect "term".toList "null".toList "terminal".toList (by decide)
          (by decide) (by decide) (by decide) (by decide) (by decide)
          "exit".toList "cute".toList (by decide) (by decide) (by decide) (by decide)
          none (replBA "in".toList "stall".toList "install".toList none
      (replBA "exit".toList "cute".toList "execute".toList none
      (z))) hh
        rw [h2] at hrf
        exact Bool.false_ne_true hrf
  have h4 : hasM (bpat "exit".toList "cute".toList) none
      (replBA "d".toList "lead".toList "delete".toList none
      (replBA "term".toList "null".toList "terminal".toList none
      (replBA "in".toList "stall".toList "install".toList none
      (replBA "exit".toList "cute".toList "execute".toList none
      (z))))) = false := by
    cases hh : hasM (bpat "exit".toList "cute".toList) none
        (replBA "d".toList "lead".toList "delete".toList none
      (replBA "term".toList "null".toList "terminal".toList none
      (replBA "in".toList "stall".toList "install".toList none
      (replBA "exit".toList "cute".toList "execute".toList none
      (z))))) with
    | false => rfl
    | true =>
        exfalso
        have hrf := hasM_reflect "d".toList "lead".toList "delete".toList (by decide)
          (by decide) (by decide) (by decide) (by decide) (by decide)
          "exit".toList "cute".toList (by decide) (by decide) (by decide) (by decide)
          none (replBA "term".toList "null".toList "terminal".toList none
      (replBA "in".toList "stall".toList "install".toList none
      (replBA "exit".toList "cute".toList "execute".toList none
      (z)))) hh
        rw [h3] at hrf
        exact Bool.false_ne_true hrf
  have h5 : hasM (bpat "exit".toList "cute".toList) none
      (replBA "the".toList "lead".toList "delete".toList none
      (replBA "d".toList "lead".toList "delete".toList none
      (replBA "term".toList "null".toList "terminal".toList none
      (replBA "in".toList "stall".toList "install".toList none
      (replBA "exit".toList "cute".toList "execute".toList none
      (z)))))) = false := by
    cases hh : hasM (bpat "exit".toList "cute".toList) none
        (replBA "the".toList "lead".toList "delete".toList none
      (replBA "d".toList "lead".toList "delete".toList none
      (replBA "term".toList "null".toList "terminal".toList none
      (replBA "in".toList "stall".toList "install".toList none
      (replBA "exit".toList "cute".toList "execute".toList none
      (z)))))) with
    | false => rfl
    | true =>
        exfalso
        have hrf := hasM_reflect "the".toList "lead".toList "delete".toList (by decide)
          (by decide) (by decide) (by decide) (by decide) (by decide)
          "exit".toList "cute".toList (by decide) (by decide) (by decide) (by decide)
          none (replBA "d".toList "lead".toList "delete".toList none
      (replBA "term".toList "null".toList "terminal".toList none
      (replBA "in".toList "stall".toList "install".toList none
      (replBA "exit".toList "cute".toList "execute".toList none
      (z))))) hh
        rw [h4] at hrf
        exact Bool.false_ne_true hrf
  have h6 : hasM (bpat "exit".toList "cute".toList) none
      (replBA "file".toList "path".toList "filepath".toList none
      (replBA "the".toList "lead".toList "delete".toList none
      (replBA "d".toList "lead".toList "delete".toList none
      (replBA "term".toList "null".toList "terminal".toList none
      (replBA "in".toList "stall".toList "install".toList none
      (replBA "exit".toList "cute".toList "execute".toList none
      (z))))))) = false := by
    cases hh : hasM (bpat "exit".toList "cute".toList) none
        (replBA "file".toList "path".toList "filepath".toList none
      (replBA "the".toList "lead".toList "delete".toList none
      (replBA "d".toList "lead".toList "delete".toList none
      (replBA "term".toList "null".toList "terminal".toList none
      (replBA "in".toList "stall".toList "install".toList none
      (replBA "exit".toList "cute".toList "execute".toList none
      (z))))))) with
    | false => rfl
    | true =>
        exfalso
        have hrf := hasM_reflect "file".toList "path".toList "filepath".toList (by decide)
          (by decide) (by decide) (by decide) (by decide) (by decide)
          "exit".toList "cute".toList (by decide) (by decide) (by decide) (by decide)
          none (replBA "the".toList "lead".toList "delete".toList none
      (replBA "d".toList "lead".toList "delete".toList none
      (replBA "term".toList "null".toList "terminal".toList none
      (replBA "in".toList "stall".toList "install".toList none
      (replBA "exit".toList "cute".toList "execute".toList none
      (z)))))) hh
        rw [h5] at hrf
        exact Bool.false_ne_true hrf
  exact h6

theorem chain_noMatch_2 (z : List Char) :
    hasM (bpat "in".toList "stall".toList) none
      (replBA "file".toList "path".toList "filepath".toList none
      (replBA "the".toList "lead".toList "delete".toList none
      (replBA "d".toList "lead".toList "delete".toList none
      (replBA "term".toList "null".toList "terminal".toList none
      (replBA "in".toList "stall".toList "install".toList none
      (replBA "exit".toList "cute".toList "execute".toList none
      (z))))))) = false := by
  have h2 : hasM (bpat "in".toList "stall".toList) none
      (replBA "in".toList "stall".toList "install".toList none
      (replBA "exit".toList "cute".toList "execute".toList none
      (z))) = false :=
    hasM_clear "in".toList "stall".toList "install".toList (by decide) (by decide)
      (by decide) (by decide) (by decide) (by decide) (by decide) (by decide) none
      (replBA "exit".toList "cute".toList "execute".toList none
      (z))
  have h3 : hasM (bpat "in".toList "stall".toList) none
      (replBA "term".toList "null".toList "terminal".toList none
      (replBA "in".toList "stall".toList "install".toList none
      (replBA "exit".toList "cute".toList "execute".toList none
      (z)))) = false := by
    cases hh : hasM (bpat "in".toList "stall".toList) none
        (replBA "term".toList "null".toList "terminal".toList none
      (replBA "in".toList "stall".toList "install".toList none
      (replBA "exit".toList "cute".toList "execute".toList none
      (z)))) with
    | false => rfl
    | true =>
        exfalso
        have hrf := hasM_reflect "term".toList "null".toList "terminal".toList (by decide)
          (by decide) (by decide) (by decide) (by decide) (by decide)
          "in".toList "stall".toList (by decide) (by decide) (by decide) (by decide)
          none (replBA "in".toList "stall".toList "install".toList none
      (replBA "exit".toList "cute".toList "execute".toList none
      (z))) hh
        rw [h2] at hrf
        exact Bool.false_ne_true hrf
  have h4 : hasM (bpat "in".toList "stall".toList) none
      (replBA "d".toList "lead".toList "delete".toList none
      (replBA "term".toList "null".toList "terminal".toList none
      (replBA "in".toList "stall".toList "install".toList none
      (replBA "exit".toList "cute".toList "execute".toList none
      (z))))) = false := by
    cases hh : hasM (bpat "in".toList "stall".toList) none
        (replBA "d".toList "lead".toList "delete".toList none
      (replBA "term".toList "null".toList "terminal".toList none
      (replBA "in".toList "stall".toList "install".toList none
      (replBA "exit".toList "cute".toList "execute".toList none
      (z))))) with
    | false => rfl
    | true =>
        exfalso
        have hrf := hasM_reflect "d".toList "lead".toList "delete".toList (by decide)
          (by decide) (by decide) (by decide) (by decide) (by decide)
          "in".toList "stall".toList (by decide) (by decide) (by decide) (by decide)
          none (replBA "term".toList "null".toList "terminal".toList none
      (replBA "in".toList "stall".toList "install".toList none
      (replBA "exit".toList "cute".toList "execute".toList none
      (z)))) hh
        rw [h3] at hrf
        exact Bool.false_ne_true hrf
  have h5 : hasM (bpat "in".toList "stall".toList) none
      (replBA "the".toList "lead".toList "delete".toList none
      (replBA "d".toList "lead".toList "delete".toList none
      (replBA "term".toList "null".toList "terminal".toList none
      (replBA "in".toList "stall".toList "install".toList none
      (replBA "exit".toList "cute".toList "execute".toList none
      (z)))))) = false := by
    cases hh : hasM (bpat "in".toList "stall".toList) none
        (replBA "the".toList "lead".toList "delete".toList none
      (replBA "d".toList "lead".toList "delete".toList none
      (replBA "term".toList "null".toList "terminal".toList none
      (replBA "in".toList "stall".toList "install".toList none
      (replBA "exit".toList "cute".toList "execute".toList none
      (z)))))) with
    | false => rfl
    | true =>
        exfalso
        have hrf := hasM_reflect "the".toList "lead".toList "delete".toList (by decide)
          (by decide) (by decide) (by decide) (by decide) (by decide)
          "in".toList "stall".toList (by decide) (by decide) (by decide) (by decide)
          none (replBA "d".toList "lead".toList "delete".toList none
      (replBA "term".toList "null".toList "terminal".toList none
      (replBA "in".toList "stall".toList "install".toList none
      (replBA "exit".toList "cute".toList "execute".toList none
      (z))))) hh
        rw [h4] at hrf
        exact Bool.false_ne_true hrf
  have h6 : hasM (bpat "in".toList "stall".toList) none
      (replBA "file".toList "path".toList "filepath".toList none
      (replBA "the".toList "lead".toList "delete".toList none
      (replBA "d".toList "lead".toList "delete".toList none
      (replBA "term".toList "null".toList "terminal".toList none
      (replBA "in".toList "stall".toList "install".toList none
      (replBA "exit".toList "cute".toList "execute".toList none
      (z))))))) = false := by
    cases hh : hasM (bpat "in".toList "stall".toList) none
        (replBA "file".toList "path".toList "filepath".toList none
      (replBA "the".toList "lead".toList "delete".toList none
      (replBA "d".toList "lead".toList "delete".toList none
      (replBA "term".toList "null".toList "terminal".toList none
      (replBA "in".toList "stall".toList "install".toList none
      (replBA "exit".toList "cute".toList "execute".toList none
      (z))))))) with
    | false => rfl
    | true =>
        exfalso
        have hrf := hasM_reflect "file".toList "path".toList "filepath".toList (by decide)
          (by decide) (by decide) (by decide) (by decide) (by decide)
          "in".toList "stall".toList (by decide) (by decide) (by decide) (by decide)
          none (replBA "the".toList "lead".toList "delete".toList none
      (replBA "d".toList "lead".toList "delete".toList none
      (replBA "term".toList "null".toList "terminal".toList none
      (replBA "in".toList "stall".toList "install".toList none
      (replBA "exit".toList "cute".toList "execute".toList none
      (z)))))) hh
        rw [h5] at hrf
        exact Bool.false_ne_true hrf
  exact h6

theorem chain_noMatch_3 (z : List Char) :
    hasM (bpat "term".toList "null".toList) none
      (replBA "file".toList "path".toList "filepath".toList none
      (replBA "the".toList "lead".toList "delete".toList none
      (replBA "d".toList "lead".toList "delete".toList none
      (replBA "term".toList "null".toList "terminal".toList none
      (replBA "in".toList "stall".toList "install".toList none
      (replBA "exit".toList "cute".toList "execute".toList none
      (z))))))) = false := by
  have h3 : hasM (bpat "term".toList "null".toList) none
      (replBA "term".toList "null".toList "terminal".toList none
      (replBA "in".toList "stall".toList "install".toList none
      (replBA "exit".toList "cute".toList "execute".toList none
      (z)))) = false :=
    hasM_clear "term".toList "null".toList "terminal".toList (by decide) (by decide)
      (by decide) (by decide) (by decide) (by decide) (by decide) (by decide) none
      (replBA "in".toList "stall".toList "install".toList none
      (replBA "exit".toList "cute".toList "execute".toList none
      (z)))
  have h4 : hasM (bpat "term".toList "null".toList) none
      (replBA "d".toList "lead".toList "delete".toList none
      (replBA "term".toList "null".toList "terminal".toList none
      (replBA "in".toList "stall".toList "install".toList none
      (replBA "exit".toList "cute".toList "execute".toList none
      (z))))) = false := by
    cases hh : hasM (bpat "term".toList "null".toList) none
        (replBA "d".toList "lead".toList "delete".toList none
      (replBA "term".toList "null".toList "terminal".toList none
      (replBA "in".toList "stall".toList "install".toList none
      (replBA "exit".toList "cute".toList "execute".toList none
      (z))))) with
    | false => rfl
    | true =>
        exfalso
        have hrf := hasM_reflect "d".toList "lead".toList "delete".toList (by decide)
          (by decide) (by decide) (by decide) (by decide) (by decide)
          "term".toList "null".toList (by decide) (by decide) (by decide) (by decide)
          none (replBA "term".toList "null".toList "terminal".toList none
      (replBA "in".toList "stall".toList "install".toList none
      (replBA "exit".toList "cute".toList "execute".toList none
      (z)))) hh
        rw [h3] at hrf
        exact Bool.false_ne_true hrf
  have h5 : hasM (bpat "term".toList "null".toList) none
      (replBA "the".toList "lead".toList "delete".toList none
      (replBA "d".toList "lead".toList "delete".toList none
      (replBA "term".toList "null".toList "terminal".toList none
      (replBA "in".toList "stall".toList "install".toList none
      (replBA "exit".toList "cute".toList "execute".toList none
      (z)))))) = false := by
    cases hh : hasM (bpat "term".toList "null".toList) none
        (replBA "the".toList "lead".toList "delete".toList none
      (replBA "d".toList "lead".toList "delete".toList none
      (replBA "term".toList "null".toList "terminal".toList none
      (replBA "in".toList "stall".toList "install".toList none
      (replBA "exit".toList "cute".toList "execute".toList none
      (z)))))) with
    | false => rfl
    | true =>
        exfalso
        have hrf := hasM_reflect "the".toList "lead".toList "delete".toList (by decide)
          (by decide) (by decide) (by decide) (by decide) (by decide)
          "term".toList "null".toList (by decide) (by decide) (by decide) (by decide)
          none (replBA "d".toList "lead".toList "delete".toList none
      (replBA "term".toList "null".toList "terminal".toList none
      (replBA "in".toList "stall".toList "install".toList none
      (replBA "exit".toList "cute".toList "execute".toList none
      (z))))) hh
        rw [h4] at hrf
        exact Bool.false_ne_true hrf
  have h6 : hasM (bpat "term".toList "null".toList) none
      (replBA "file".toList "path".toList "filepath".toList none
      (replBA "the".toList "lead".toList "delete".toList none
      (replBA "d".toList "lead".toList "delete".toList none
      (replBA "term".toList "null".toList "terminal".toList none
      (replBA "in".toList "stall".toList "install".toList none
      (replBA "exit".toList "cute".toList "execute".toList none
      (z))))))) = false := by
    cases hh : hasM (bpat "term".toList "null".toList) none
        (replBA "file".toList "path".toList "filepath".toList none
      (replBA "the".toList "lead".toList "delete".toList none
      (replBA "d".toList "lead".toList "delete".toList none
      (replBA "term".toList "null".toList "terminal".toList none
      (replBA "in".toList "stall".toList "install".toList none
      (replBA "exit".toList "cute".toList "execute".toList none
      (z))))))) with
    | false => rfl
    | true =>
        exfalso
        have hrf := hasM_reflect "file".toList "path".toList "filepath".toList (by decide)
          (by decide) (by decide) (by decide) (by decide) (by decide)
          "term".toList "null".toList (by decide) (by decide) (by decide) (by decide)
          none (replBA "the".toList "lead".toList "delete".toList none
      (replBA "d".toList "lead".toList "delete".toList none
      (replBA "term".toList "null".toList "terminal".toList none
      (replBA "in".toList "stall".toList "install".toList none
      (replBA "exit".toList "cute".toList "execute".toList none
      (z)))))) hh
        rw [h5] at hrf
        exact Bool.false_ne_true hrf
  exact h6

theorem chain_noMatch_4 (z : List Char) :
    hasM (bpat "d".toList "lead".toList) none
      (replBA "file".toList "path".toList "filepath".toList none
      (replBA "the".toList "lead".toList "delete".toList none
      (replBA "d".toList "lead".toList "delete".toList none
      (replBA "term".toList "null".toList "terminal".toList none
      (replBA "in".toList "stall".toList "install".toList none
      (replBA "exit".toList "cute".toList "execute".toList none
      (z))))))) = false := by
  have h4 : hasM (bpat "d".toList "lead".toList) none
      (replBA "d".toList "lead".toList "delete".toList none
      (replBA "term".toList "null".toList "terminal".toList none
      (replBA "in".toList "stall".toList "install".toList none
      (replBA "exit".toList "cute".toList "execute".toList none
      (z))))) = false :=
    hasM_clear "d".toList "lead".toList "delete".toList (by decide) (by decide)
      (by decide) (by decide) (by decide) (by decide) (by decide) (by decide) none
      (replBA "term".toList "null".toList "terminal".toList none
      (replBA "in".toList "stall".toList "install".toList none
      (replBA "exit".toList "cute".toList "execute".toList none
      (z))))
  have h5 : hasM (bpat "d".toList "lead".toList) none
      (replBA "the".toList "lead".toList "delete".toList none
      (replBA "d".toList "lead".toList "delete".toList none
      (replBA "term".toList "null".toList "terminal".toList none
      (replBA "in".toList "stall".toList "install".toList none
      (replBA "exit".toList "cute".toList "execute".toList none
      (z)))))) = false := by
    cases hh : hasM (bpat "d".toList "lead".toList) none
        (replBA "the".toList "lead".toList "delete".toList none
      (replBA "d".toList "lead".toList "delete".toList none
      (replBA "term".toList "null".toList "terminal".toList none
      (replBA "in".toList "stall".toList "install".toList none
      (replBA "exit".toList "cute".toList "execute".toList none
      (z)))))) with
    | false => rfl
    | true =>
        exfalso
        have hrf := hasM_reflect "the".toList "lead".toList "delete".toList (by decide)
          (by decide) (by decide) (by decide) (by decide) (by decide)
          "d".toList "lead".toList (by decide) (by decide) (by decide) (by decide)
          none (replBA "d".toList "lead".toList "delete".toList none
      (replBA "term".toList "null".toList "terminal".toList none
      (replBA "in".toList "stall".toList "install".toList none
      (replBA "exit".toList "cute".toList "execute".toList none
      (z))))) hh
        rw [h4] at hrf
        exact Bool.false_ne_true hrf
  have h6 : hasM (bpat "d".toList "lead".toList) none
      (replBA "file".toList "path".toList "filepath".toList none
      (replBA "the".toList "lead".toList "delete".toList none
      (replBA "d".toList "lead".toList "delete".toList none
      (replBA "term".toList "null".toList "terminal".toList none
      (replBA "in".toList "stall".toList "install".toList none
      (replBA "exit".toList "cute".toList "execute".toList none
      (z))))))) = false := by
    cases hh : hasM (bpat "d".toList "lead".toList) none
        (replBA "file".toList "path".toList "filepath".toList none
      (replBA "the".toList "lead".toList "delete".toList none
      (replBA "d".toList "lead".toList "delete".toList none
      (replBA "term".toList "null".toList "terminal".toList none
      (replBA "in".toList "stall".toList "install".toList none
      (replBA "exit".toList "cute".toList "execute".toList none
      (z))))))) with
    | false => rfl
    | true =>
        exfalso
        have hrf := hasM_reflect "file".toList "path".toList "filepath".toList (by decide)
          (by decide) (by decide) (by decide) (by decide) (by decide)
          "d".toList "lead".toList (by decide) (by decide) (by decide) (by decide)
          none (replBA "the".toList "lead".toList "delete".toList none
      (replBA "d".toList "lead".toList "delete".toList none
      (replBA "term".toList "null".toList "terminal".toList none
      (replBA "in".toList "stall".toList "install".toList none
      (replBA "exit".toList "cute".toList "execute".toList none
      (z)))))) hh
        rw [h5] at hrf
        exact Bool.false_ne_true hrf
  exact h6

theorem chain_noMatch_5 (z : List Char) :
    hasM (bpat "the".toList "lead".toList) none
      (replBA "file".toList "path".toList "filepath".toList none
      (replBA "the".toList "lead".toList "delete".toList none
      (replBA "d".toList "lead".toList "delete".toList none
      (replBA "term".toList "null".toList "terminal".toList none
      (replBA "in".toList "stall".toList "install".toList none
      (replBA "exit".toList "cute".toList "execute".toList none
      (z))))))) = false := by
  have h5 : hasM (bpat "the".toList "lead".toList) none
      (replBA "the".toList "lead".toList "delete".toList none
      (replBA "d".toList "lead".toList "delete".toList none
      (replBA "term".toList "null".toList "terminal".toList none
      (replBA "in".toList "stall".toList "install".toList none
      (replBA "exit".toList "cute".toList "execute".toList none
      (z)))))) = false :=
    hasM_clear "the".toList "lead".toList "delete".toList (by decide) (by decide)
      (by decide) (by decide) (by decide) (by decide) (by decide) (by decide) none
      (replBA "d".toList "lead".toList "delete".toList none
      (replBA "term".toList "null".toList "terminal".toList none
      (replBA "in".toList "stall".toList "install".toList none
      (replBA "exit".toList "cute".toList "execute".toList none
      (z)))))
  have h6 : hasM (bpat "the".toList "lead".toList) none
      (replBA "file".toList "path".toList "filepath".toList none
      (replBA "the".toList "lead".toList "delete".toList none
      (replBA "d".toList "lead".toList "delete".toList none
      (replBA "term".toList "null".toList "terminal".toList none
      (replBA "in".toList "stall".toList "install".toList none
      (replBA "exit".toList "cute".toList "execute".toList none
      (z))))))) = false := by
    cases hh : hasM (bpat "the".toList "lead".toList) none
        (replBA "file".toList "path".toList "filepath".toList none
      (replBA "the".toList "lead".toList "delete".toList none
      (replBA "d".toList "lead".toList "delete".toList none
      (replBA "term".toList "null".toList "terminal".toList none
      (replBA "in".toList "stall".toList "install".toList none
      (replBA "exit".toList "cute".toList "execute".toList none
      (z))))))) with
    | false => rfl
    | true =>
        exfalso
        have hrf := hasM_reflect "file".toList "path".toList "filepath".toList (by decide)
          (by decide) (by decide) (by decide) (by decide) (by decide)
          "the".toList "lead".toList (by decide) (by decide) (by decide) (by decide)
          none (replBA "the".toList "lead".toList "delete".toList none
      (replBA "d".toList "lead".toList "delete".toList none
      (replBA "term".toList "null".toList "terminal".toList none
      (replBA "in".toList "stall".toList "install".toList none
      (replBA "exit".toList "cute".toList "execute".toList none
      (z)))))) hh
        rw [h5] at hrf
        exact Bool.false_ne_true hrf
  exact h6

theorem chain_noMatch_6 (z : List Char) :
    hasM (bpat "file".toList "path".toList) none
      (replBA "file".toList "path".toList "filepath".toList none
      (replBA "the".toList "lead".toList "delete".toList none
      (replBA "d".toList "lead".toList "delete".toList none
      (replBA "term".toList "null".toList "terminal".toList none
      (replBA "in".toList "stall".toList "install".toList none
      (replBA "exit".toList "cute".toList "execute".toList none
      (z))))))) = false := by
  have h6 : hasM (bpat "file".toList "path".toList) none
      (replBA "file".toList "path".toList "filepath".toList none
      (replBA "the".toList "lead".toList "delete".toList none
      (replBA "d".toList "lead".toList "delete".toList none
      (replBA "term".toList "null".toList "terminal".toList none
      (replBA "in".toList "stall".toList "install".toList none
      (replBA "exit".toList "cute".toList "execute".toList none
      (z))))))) = false :=
    hasM_clear "file".toList "path".toList "filepath".toList (by decide) (by decide)
      (by decide) (by decide) (by decide) (by decide) (by decide) (by decide) none
      (replBA "the".toList "lead".toList "delete".toList none
      (replBA "d".toList "lead".toList "delete".toList none
      (replBA "term".toList "null".toList "terminal".toList none
      (replBA "in".toList "stall".toList "install".toList none
      (replBA "exit".toList "cute".toList "execute".toList none
      (z))))))
  exact h6

theorem keepFirsts_eq_dedupFirst (l : List (List Char)) :
    ∀ seen, keepFirsts seen l = dedupFirst (l.filter (fun y => decide (¬ y ∈ seen))) := by
  induction l with
  | nil => intro seen; simp [keepFirsts, dedupFirst]
  | cons x xs ih =>
      intro seen
      by_cases hx : x ∈ seen
      · rw [keepFirsts, if_pos hx, List.filter_cons]
        have hdx : (decide (¬ x ∈ seen)) = false := by simp [hx]
        rw [hdx]
        simp only [Bool.false_eq_true, if_false]
        exact ih seen
      · rw [keepFirsts, if_neg hx, List.filter_cons]
        have hdx : (decide (¬ x ∈ seen)) = true := by simp [hx]
        rw [hdx]
        simp only [if_true]
        rw [dedupFirst]
        congr 1
        rw [ih (x :: seen)]
        congr 1
        rw [List.filter_filter]
        refine List.filter_congr ?_
        intro y _
        simp only [List.mem_cons, decide_not]
        cases hyx : (y == x) with
        | true =>
            have : y = x := by simpa using hyx
            simp [this]
        | false =>
            have : ¬ y = x := by simpa using hyx
            simp [this]

theorem dedupFirst_eq_firstOccurrenceDedup (l : List (List Char)) :
    dedupFirst l = firstOccurrenceDedup l := by
  unfold firstOccurrenceDedup
  rw [keepFirsts_eq_dedupFirst l []]
  congr 1
  exact (List.filter_eq_self.mpr fun a _ => by simp).symm

/-! ### Claim theorems -/

/-- C1: the spec requires `similarity(s, s) = 1` for every `s`, including the
empty/empty case as an explicit division-by-zero special case.  The code has
no such special case: for two empty strings it computes `1 - 0/0`, which is
`NaN` in JavaScript (modelled as `none`), not `1`; for nonempty strings
(e.g. `"abc"`) the self-similarity is exactly `1`. -/
theorem C1_empty_self_similarity_is_nan :
    similarity [] [] = none ∧ similarity "abc".toList "abc".toList = some 1 := by
  constructor
  · rfl
  · decide!

/-- C5: the repository's own test suite expects
`interpret("red the file server.js")` to produce a task with intent
`file_read`, but the code classifies it as `conversation` (the `file_read`
score is `13/4`, giving confidence `13/56`, below the `0.6` floor); the file
path `server.js` is still extracted. -/
theorem C5_red_file_is_conversation :
    interpret "red the file server.js".toList =
      .conversation "red the file server.js".toList "red the file server.js".toList
        ["server.js".toList] "red the file server.js".toList ∧
    taskIntent (interpret "red the file server.js".toList) = none := by
  constructor
  · decide!
  · decide!

/-- C7: zero-length or whitespace-only input yields the `Empty` variant
(the guard is the first step of `interpret`, before meta-command detection,
correction, classification or extraction). -/
theorem C7_whitespace_yields_empty (text : List Char) (h : text.all isJsWs = true) :
    interpret text = .empty := by
  unfold interpret
  rw [if_pos (Or.inr (jsTrim_of_all_ws text h))]

theorem C7_witness :
    ("   ".toList.all isJsWs = true) ∧ interpret "   ".toList = .empty :=
  ⟨by decide, C7_whitespace_yields_empty "   ".toList (by decide)⟩

/-- C3 counterexample: in the Task variant the confidence can exceed `1`,
because the keyword-substring bonus of `extractIntent` fires once per word:
six repetitions of `apt` give the `install` intent score `12` over
denominator `11`, and `interpret` returns that confidence unclamped. -/
theorem C3_task_confidence_above_one :
    taskConfidence (interpret "apt apt apt apt apt apt".toList) = some (12/11) ∧
    ¬ ((12 : ℚ)/11 ≤ 1) := by
  constructor
  · decide!
  · norm_num

/-- C3 as amended: every confidence in a `MetaCommand` result of `interpret`
lies in `[0, 1]`, and every confidence in a `Task` result is at least the
global floor `1/2` (but is not bounded by `1`, as the counterexample
shows). -/
theorem C3_amended_confidence_bounds :
    (∀ text q, metaConfidence (interpret text) = some q → 0 ≤ q ∧ q ≤ 1) ∧
    (∀ text q, taskConfidence (interpret text) = some q → 1/2 ≤ q) := by
  constructor
  · intro text q h
    unfold interpret at h
    by_cases he : text = [] ∨ jsTrim text = []
    · rw [if_pos he] at h
      cases h
    · rw [if_neg he] at h
      cases hd : detectMetaCommand text with
      | none =>
          rw [hd] at h
          simp only at h
          cases hi : extractIntent (correctWhisperErrors text) with
          | none => rw [hi] at h; cases h
          | some i =>
              rw [hi] at h
              dsimp only at h
              by_cases hc : (1:ℚ)/2 ≤ i.confidence
              · rw [if_pos hc] at h
                cases h
              · rw [if_neg hc] at h
                cases h
      | some m =>
          rw [hd] at h
          cases h
          exact detectMetaCommand_bounds text m hd
  · intro text q h
    unfold interpret at h
    by_cases he : text = [] ∨ jsTrim text = []
    · rw [if_pos he] at h
      cases h
    · rw [if_neg he] at h
      cases hd : detectMetaCommand text with
      | none =>
          rw [hd] at h
          simp only at h
          cases hi : extractIntent (correctWhisperErrors text) with
          | none => rw [hi] at h; cases h
          | some i =>
              rw [hi] at h
              dsimp only at h
              by_cases hc : (1:ℚ)/2 ≤ i.confidence
              · rw [if_pos hc] at h
                cases h
                exact hc
              · rw [if_neg hc] at h
                cases h
      | some m =>
          rw [hd] at h
          cases h

theorem C3_amended_witness :
    ((0 : ℚ) ≤ 1 ∧ (1 : ℚ) ≤ 1) ∧ (1 : ℚ)/2 ≤ 12/11 :=
  ⟨C3_amended_confidence_bounds.1 "clear".toList 1 (by decide!),
   C3_amended_confidence_bounds.2 "apt apt apt apt apt apt".toList (12/11) (by decide!)⟩

/-- C4: on `"open /usr/local/bin/app and ./config.json"` the extractor
returns a list containing each of the two mentioned paths exactly once (the
full result also holds `/config.json` and `config.json`, distinct strings
matched by other pattern families); on `"a.b x.y a.b"` the raw family
concatenation holds an exact duplicate and the extractor keeps only its
first occurrence, in position; in general the result equals the raw
concatenation of the three pattern families deduplicated by
first-occurrence retention (`firstOccurrenceDedup`), hence is a
duplicate-free sublist of the raw list with the same members. -/
theorem C4_extract_dedups_paths :
    ((extractFilePaths "open /usr/local/bin/app and ./config.json".toList).count
        "/usr/local/bin/app".toList = 1 ∧
     (extractFilePaths "open /usr/local/bin/app and ./config.json".toList).count
        "./config.json".toList = 1) ∧
    (rawPaths "a.b x.y a.b".toList = ["a.b".toList, "x.y".toList, "a.b".toList] ∧
     extractFilePaths "a.b x.y a.b".toList = ["a.b".toList, "x.y".toList]) ∧
    (∀ text, extractFilePaths text = firstOccurrenceDedup (rawPaths text) ∧
       (extractFilePaths text).Nodup ∧
       List.Sublist (extractFilePaths text) (rawPaths text) ∧
       (∀ p, p ∈ extractFilePaths text ↔ p ∈ rawPaths text)) := by
  refine ⟨⟨by decide!, by decide!⟩, ⟨by decide!, by decide!⟩, ?_⟩
  intro text
  exact ⟨dedupFirst_eq_firstOccurrenceDedup _, dedupFirst_nodup _, dedupFirst_sublist _,
    fun p => mem_dedupFirst _ p⟩

/-- C6: meta-command detection is first-qualifying-match over the fixed
declared order: it equals the resolution over the flattened ordered
`(action, phrase)` list where a substring hit yields confidence exactly `1`
and otherwise a similarity of at least `0.85` yields that similarity; on
`"top bottom"` the phrase `top` of `scroll_top` and the phrase `bottom` of
the later command `scroll_bottom` both qualify, and the earlier command
wins. -/
theorem C6_meta_first_qualifying :
    (∀ text, detectMetaCommand text = firstQualifyingMeta text) ∧
    detectMetaCommand "top bottom".toList =
      some { isCommand := true, action := "scroll_top", confidence := 1,
             original := "top bottom".toList } ∧
    patternMatch (correctWhisperErrors "top bottom".toList) "bottom".toList = some 1 := by
  refine ⟨?_, by decide!, by decide!⟩
  intro text
  unfold detectMetaCommand firstQualifyingMeta
  dsimp only
  rw [findSome?_bind]
  congr 1
  funext cp
  rw [List.findSome?_map]
  congr 1
  funext pat
  simp only [Function.comp]
  exact patternMatch_map_eq _ _ _ _

/-- C2 counterexample: on `"delete zz"` (two words) the keyword `delete` of
`file_delete` matches as a substring, and the code adds the bonus twice
(once per word): the accumulated `(score, keyword hits, object hits)` is
`(3, 3, 0)`, while the claim's once-per-keyword reading predicts
`(2, 2, 0)`. -/
theorem C2_substring_not_once_per_keyword :
    ((intents.lookup "file_delete").map fun d =>
        intentScore d "delete zz".toList (splitWs "delete zz".toList)) =
      some (3, 3, 0) ∧
    ((intents.lookup "file_delete").map fun d =>
        intentScoreSpecOnce d "delete zz".toList (splitWs "delete zz".toList)) =
      some (2, 2, 0) ∧
    ((3 : ℚ), (3 : ℕ), (0 : ℕ)) ≠ ((2 : ℚ), (2 : ℕ), (0 : ℕ)) := by
  refine ⟨by decide!, by decide!, by decide!⟩

/-- C2 as amended: in `extractIntent`'s scoring loops each
substring-matching keyword contributes `1.0` to the score and one
keyword-hit increment once per whitespace-delimited word (so `|words|`
times in total), and each substring-matching object contributes `0.5` and
one object-hit increment once per word; the fuzzy contributions are summed
over `(word, entry)` pairs as before. -/
theorem C2_amended_substring_fires_per_word :
    (∀ c ws kw a, keywordLoop c ws kw a =
      (a.1 + (ws.map fun w => fuzzyContrib w kw).sum +
         (if jsIncludes c kw then (ws.length : ℚ) else 0),
       a.2 + (ws.map fun w => fuzzyHit w kw).sum +
         (if jsIncludes c kw then ws.length else 0))) ∧
    (∀ c ws ob a, objectLoop c ws ob a =
      (a.1 + (ws.map fun w => objContrib w ob).sum +
         (if jsIncludes c ob then (ws.length : ℚ) * (1/2) else 0),
       a.2 + (ws.map fun w => fuzzyHit w ob).sum +
         (if jsIncludes c ob then ws.length else 0))) := by
  constructor
  · intro c ws kw a
    induction ws generalizing a with
    | nil => simp [keywordLoop]
    | cons w ws ih =>
        unfold keywordLoop at ih ⊢
        simp only [List.foldl_cons]
        rw [ih]
        simp only [List.map_cons, List.sum_cons, List.length_cons, fuzzyContrib, fuzzyHit]
        cases hsim : similarity w kw with
        | none =>
            dsimp only
            by_cases hsub : jsIncludes c kw = true
            · simp only [hsub, if_true, Prod.mk.injEq]
              constructor
              · push_cast
                ring
              · omega
            · simp only [if_neg hsub, Prod.mk.injEq]
              constructor
              · push_cast
                ring
              · omega
        | some q =>
            dsimp only
            by_cases hth : (7 : ℚ)/10 ≤ q
            · simp only [if_pos hth]
              by_cases hsub : jsIncludes c kw = true
              · simp only [hsub, if_true, Prod.mk.injEq]
                constructor
                · push_cast
                  ring
                · omega
              · simp only [if_neg hsub, Prod.mk.injEq]
                constructor
                · push_cast
                  ring
                · omega
            · simp only [if_neg hth]
              by_cases hsub : jsIncludes c kw = true
              · simp only [hsub, if_true, Prod.mk.injEq]
                constructor
                · push_cast
                  ring
                · omega
              · simp only [if_neg hsub, Prod.mk.injEq]
                constructor
                · push_cast
                  ring
                · omega
  · intro c ws ob a
    induction ws generalizing a with
    | nil => simp [objectLoop]
    | cons w ws ih =>
        unfold objectLoop at ih ⊢
        simp only [List.foldl_cons]
        rw [ih]
        simp only [List.map_cons, List.sum_cons, List.length_cons, objContrib, fuzzyHit]
        cases hsim : similarity w ob with
        | none =>
            dsimp only
            by_cases hsub : jsIncludes c ob = true
            · simp only [hsub, if_true, Prod.mk.injEq]
              constructor
              · push_cast
                ring
              · omega
            · simp only [if_neg hsub, Prod.mk.injEq]
              constructor
              · push_cast
                ring
              · omega
        | some q =>
            dsimp only
            by_cases hth : (7 : ℚ)/10 ≤ q
            · simp only [if_pos hth]
              by_cases hsub : jsIncludes c ob = true
              · simp only [hsub, if_true, Prod.mk.injEq]
                constructor
                · push_cast
                  ring
                · omega
              · simp only [if_neg hsub, Prod.mk.injEq]
                constructor
                · push_cast
                  ring
                · omega
            · simp only [if_neg hth]
              by_cases hsub : jsIncludes c ob = true
              · simp only [hsub, if_true, Prod.mk.injEq]
                constructor
                · push_cast
                  ring
                · omega
              · simp only [if_neg hsub, Prod.mk.injEq]
                constructor
                · push_cast
                  ring
                · omega

/-- C10: the Levenshtein distance is bounded by the longer length (also
without the nonemptiness hypothesis, which the claim assumes), so every
defined similarity value lies in `[0, 1]`, and every confidence returned by
`detectMetaCommand` lies in `[0.85, 1]` (the fuzzy branch returns the
similarity only when it reaches the `0.85` threshold, the substring branch
returns `1`). -/
theorem C10_similarity_unit_interval :
    (∀ a b : List Char, 0 < max a.length b.length →
       levenshteinDistance a b ≤ max a.length b.length) ∧
    (∀ (a b : List Char) (s : ℚ), similarity a b = some s → 0 ≤ s ∧ s ≤ 1) ∧
    (∀ (text : List Char) (m : MetaResult), detectMetaCommand text = some m →
       17/20 ≤ m.confidence ∧ m.confidence ≤ 1) := by
  refine ⟨fun a b _ => levenshteinDistance_le_max a b, ?_, detectMetaCommand_strong_bounds⟩
  intro a b s h
  obtain ⟨hs, hm⟩ := similarity_some a b s h
  refine ⟨?_, similarity_le_one _ _ _ h⟩
  rw [hs]
  have h1 : (levenshteinDistance a b : ℚ) ≤ ((max a.length b.length : ℕ) : ℚ) := by
    exact_mod_cast levenshteinDistance_le_max a b
  have h2 : (0 : ℚ) < ((max a.length b.length : ℕ) : ℚ) := by exact_mod_cast hm
  have h3 : (levenshteinDistance a b : ℚ) / ((max a.length b.length : ℕ) : ℚ) ≤ 1 :=
    (div_le_one h2).mpr h1
  linarith

theorem C10_witness :
    (levenshteinDistance "red".toList "read".toList ≤
       max "red".toList.length "read".toList.length) ∧
    (0 ≤ (3 : ℚ)/4 ∧ (3 : ℚ)/4 ≤ 1) ∧
    (17/20 ≤ (1 : ℚ) ∧ (1 : ℚ) ≤ 1) :=
  ⟨C10_similarity_unit_interval.1 "red".toList "read".toList (by decide),
   C10_similarity_unit_interval.2.1 "red".toList "read".toList (3/4) (by decide!),
   C10_similarity_unit_interval.2.2 "clear".toList
     { isCommand := true, action := "reset", confidence := 1, original := "clear".toList }
     (by decide!)⟩

/-- C9 counterexample: `correctWhisperErrors` does not trim: on `" A"` it
returns `" a"`, which starts with the (whitespace) space character. -/
theorem C9_no_trim :
    correctWhisperErrors " A".toList = " a".toList ∧
    (correctWhisperErrors " A".toList).head? = some spaceChar ∧
    isJsWs spaceChar = true := by
  refine ⟨by decide!, by decide!, by decide⟩

/-- C9 as amended: `correctWhisperErrors` lowercases the text before
applying the fixed ordered replacement list — it is invariant under
pre-lowercasing and its result contains no uppercase ASCII letter — but it
does not trim (leading/trailing whitespace survives, see the
counterexample). -/
theorem C9_amended_lowercases_no_trim :
    (∀ text, correctWhisperErrors (lowerStr text) = correctWhisperErrors text) ∧
    (∀ text c, c ∈ correctWhisperErrors text → c.toNat < 65 ∨ 90 < c.toNat) := by
  constructor
  · intro text
    unfold correctWhisperErrors
    rw [lowerStr_idem]
  · intro text c hc
    unfold correctWhisperErrors at hc
    rcases replLB_mem _ _ _ _ _ hc with h | h
    · rcases replLB_mem _ _ _ _ _ h with h | h
      · rcases replBA_mem _ _ _ _ _ _ h with h | h
        · rcases replBA_mem _ _ _ _ _ _ h with h | h
          · rcases replBA_mem _ _ _ _ _ _ h with h | h
            · rcases replBA_mem _ _ _ _ _ _ h with h | h
              · rcases replBA_mem _ _ _ _ _ _ h with h | h
                · rcases replBA_mem _ _ _ _ _ _ h with h | h
                  · obtain ⟨d, _, hd⟩ := List.mem_map.mp h
                    rw [← hd]
                    exact lowerChar_not_upper d
                  · exact (show ∀ x ∈ "execute".toList, x.toNat < 65 ∨ 90 < x.toNat by decide) c h
                · exact (show ∀ x ∈ "install".toList, x.toNat < 65 ∨ 90 < x.toNat by decide) c h
              · exact (show ∀ x ∈ "terminal".toList, x.toNat < 65 ∨ 90 < x.toNat by decide) c h
            · exact (show ∀ x ∈ "delete".toList, x.toNat < 65 ∨ 90 < x.toNat by decide) c h
          · exact (show ∀ x ∈ "delete".toList, x.toNat < 65 ∨ 90 < x.toNat by decide) c h
        · exact (show ∀ x ∈ "filepath".toList, x.toNat < 65 ∨ 90 < x.toNat by decide) c h
      · exact (show ∀ x ∈ "cd ".toList, x.toNat < 65 ∨ 90 < x.toNat by decide) c h
    · exact (show ∀ x ∈ "git ".toList, x.toNat < 65 ∨ 90 < x.toNat by decide) c h

/-- C8: the error corrector is idempotent: applying
`correctWhisperErrors` twice gives the same result as applying it once, for
every input string.  A second pass finds no occurrence of any replacement
pattern: replacement outputs are single word-character runs flanked by
non-word characters, never equal to any pattern word, so they can take part
in no new `\\b`-delimited occurrence, and lowercasing is idempotent. -/
theorem C8_correct_idempotent (x : List Char) :
    correctWhisperErrors (correctWhisperErrors x) = correctWhisperErrors x := by
  have hchain : ∀ s, correctWhisperErrors s =
      (replBA "file".toList "path".toList "filepath".toList none
      (replBA "the".toList "lead".toList "delete".toList none
      (replBA "d".toList "lead".toList "delete".toList none
      (replBA "term".toList "null".toList "terminal".toList none
      (replBA "in".toList "stall".toList "install".toList none
      (replBA "exit".toList "cute".toList "execute".toList none
      (lowerStr s))))))) := by
    intro s
    unfold correctWhisperErrors
    rw [replLB_self, replLB_self]
  have hfix : ∀ c ∈ (replBA "file".toList "path".toList "filepath".toList none
      (replBA "the".toList "lead".toList "delete".toList none
      (replBA "d".toList "lead".toList "delete".toList none
      (replBA "term".toList "null".toList "terminal".toList none
      (replBA "in".toList "stall".toList "install".toList none
      (replBA "exit".toList "cute".toList "execute".toList none
      (lowerStr x))))))), lowerChar c = c := by
    intro c hc
    rcases replBA_mem _ _ _ _ _ _ hc with h | h
    · rcases replBA_mem _ _ _ _ _ _ h with h | h
      · rcases replBA_mem _ _ _ _ _ _ h with h | h
        · rcases replBA_mem _ _ _ _ _ _ h with h | h
          · rcases replBA_mem _ _ _ _ _ _ h with h | h
            · rcases replBA_mem _ _ _ _ _ _ h with h | h
              · unfold lowerStr at h
                obtain ⟨d, _, hd⟩ := List.mem_map.mp h
                rw [← hd]
                exact lowerChar_idem d
              · exact (show ∀ u ∈ "execute".toList, lowerChar u = u by decide) c h
            · exact (show ∀ u ∈ "install".toList, lowerChar u = u by decide) c h
          · exact (show ∀ u ∈ "terminal".toList, lowerChar u = u by decide) c h
        · exact (show ∀ u ∈ "delete".toList, lowerChar u = u by decide) c h
      · exact (show ∀ u ∈ "delete".toList, lowerChar u = u by decide) c h
    · exact (show ∀ u ∈ "filepath".toList, lowerChar u = u by decide) c h
  have hlower : lowerStr (replBA "file".toList "path".toList "filepath".toList none
      (replBA "the".toList "lead".toList "delete".toList none
      (replBA "d".toList "lead".toList "delete".toList none
      (replBA "term".toList "null".toList "terminal".toList none
      (replBA "in".toList "stall".toList "install".toList none
      (replBA "exit".toList "cute".toList "execute".toList none
      (lowerStr x))))))) =
      (replBA "file".toList "path".toList "filepath".toList none
      (replBA "the".toList "lead".toList "delete".toList none
      (replBA "d".toList "lead".toList "delete".toList none
      (replBA "term".toList "null".toList "terminal".toList none
      (replBA "in".toList "stall".toList "install".toList none
      (replBA "exit".toList "cute".toList "execute".toList none
      (lowerStr x))))))) := by
    unfold lowerStr
    exact (List.map_congr_left hfix).trans (List.map_id _)
  rw [hchain x, hchain (replBA "file".toList "path".toList "filepath".toList none
      (replBA "the".toList "lead".toList "delete".toList none
      (replBA "d".toList "lead".toList "delete".toList none
      (replBA "term".toList "null".toList "terminal".toList none
      (replBA "in".toList "stall".toList "install".toList none
      (replBA "exit".toList "cute".toList "execute".toList none
      (lowerStr x))))))), hlower]
  rw [replBA_noMatch_id "exit".toList "cute".toList "execute".toList none
    (replBA "file".toList "path".toList "filepath".toList none
      (replBA "the".toList "lead".toList "delete".toList none
      (replBA "d".toList "lead".toList "delete".toList none
      (replBA "term".toList "null".toList "terminal".toList none
      (replBA "in".toList "stall".toList "install".toList none
      (replBA "exit".toList "cute".toList "execute".toList none
      (lowerStr x))))))) (chain_noMatch_1 (lowerStr x))]
  rw [replBA_noMatch_id "in".toList "stall".toList "install".toList none
    (replBA "file".toList "path".toList "filepath".toList none
      (replBA "the".toList "lead".toList "delete".toList none
      (replBA "d".toList "lead".toList "delete".toList none
      (replBA "term".toList "null".toList "terminal".toList none
      (replBA "in".toList "stall".toList "install".toList none
      (replBA "exit".toList "cute".toList "execute".toList none
      (lowerStr x))))))) (chain_noMatch_2 (lowerStr x))]
  rw [replBA_noMatch_id "term".toList "null".toList "terminal".toList none
    (replBA "file".toList "path".toList "filepath".toList none
      (replBA "the".toList "lead".toList "delete".toList none
      (replBA "d".toList "lead".toList "delete".toList none
      (replBA "term".toList "null".toList "terminal".toList none
      (replBA "in".toList "stall".toList "install".toList none
      (replBA "exit".toList "cute".toList "execute".toList none
      (lowerStr x))))))) (chain_noMatch_3 (lowerStr x))]
  rw [replBA_noMatch_id "d".toList "lead".toList "delete".toList none
    (replBA "file".toList "path".toList "filepath".toList none
      (replBA "the".toList "lead".toList "delete".toList none
      (replBA "d".toList "lead".toList "delete".toList none
      (replBA "term".toList "null".toList "terminal".toList none
      (replBA "in".toList "stall".toList "install".toList none
      (replBA "exit".toList "cute".toList "execute".toList none
      (lowerStr x))))))) (chain_noMatch_4 (lowerStr x))]
  rw [replBA_noMatch_id "the".toList "lead".toList "delete".toList none
    (replBA "file".toList "path".toList "filepath".toList none
      (replBA "the".toList "lead".toList "delete".toList none
      (replBA "d".toList "lead".toList "delete".toList none
      (replBA "term".toList "null".toList "terminal".toList none
      (replBA "in".toList "stall".toList "install".toList none
      (replBA "exit".toList "cute".toList "execute".toList none
      (lowerStr x))))))) (chain_noMatch_5 (lowerStr x))]
  rw [replBA_noMatch_id "file".toList "path".toList "filepath".toList none
    (replBA "file".toList "path".toList "filepath".toList none
      (replBA "the".toList "lead".toList "delete".toList none
      (replBA "d".toList "lead".toList "delete".toList none
      (replBA "term".toList "null".toList "terminal".toList none
      (replBA "in".toList "stall".toList "install".toList none
      (replBA "exit".toList "cute".toList "execute".toList none
      (lowerStr x))))))) (chain_noMatch_6 (lowerStr x))]

end NLP
